import Mathlib

/-!
Verification development for the picoflow workflow orchestrator.

The definitions below are shallow embeddings of the Rust sources:
dag.rs (DagEngine), scheduler.rs (TaskScheduler), retry.rs, state.rs
(StateManager row updates), executors/mod.rs (output truncation),
parser.rs (task-name validation) and daemon.rs (PID-file handling).
Machine integers are modelled as Nat (no overflow occurs in the ranges
exercised), strings as Lean String or List Char, byte buffers as
List Nat with entries below 256, and the SQLite rows as explicit
record values.  The petgraph library functions used by dag.rs
(toposort, is_cyclic_directed) are modelled from their documented
contract by an executable Kahn algorithm; is_cyclic_directed is the
failure of toposort, as in petgraph.
-/

/-! ## Data model (models.rs) -/

def MAX_TASK_NAME_LEN : Nat := 64

def MAX_OUTPUT_SIZE : Nat := 10485760

/-- Task statuses from models.rs. -/
inductive TaskStatus where
  | Pending
  | Running
  | Success
  | Failed
  | Retrying
  | Timeout
deriving DecidableEq, Repr

/-- Statuses treated as terminal by state.rs (the matches on
Success, Failed and Timeout in update_execution_status and
update_task_status). -/
def TaskStatus.isTerminal : TaskStatus → Bool
  | .Success => true
  | .Failed => true
  | .Timeout => true
  | _ => false

/-- TaskConfig from models.rs, restricted to the fields the verified
claims depend on (the executor-specific config variant is irrelevant
to graph construction, scheduling and retry accounting). -/
structure TaskConfig where
  name : String
  depends_on : List String
  continue_on_failure : Bool
  retry : Option Nat
  timeout : Option Nat
deriving DecidableEq, Repr

instance : Inhabited TaskConfig := ⟨⟨"", [], false, none, none⟩⟩

/-- Error type from error.rs, restricted to the variants produced by
the embedded functions.  The CycleDetected payload is the
human-readable path produced by find_cycle; the claims only depend on
the constructor, so the embedding carries a placeholder string. -/
inductive PicoFlowError where
  | MissingDependency (task : String) (dependency : String)
  | CycleDetected (path : String)
  | InvalidTaskName (name : String)
  | TaskNameTooLong (name : String) (max : Nat)
  | Other (msg : String)
deriving DecidableEq, Repr

instance {ε α : Type} [DecidableEq ε] [DecidableEq α] : DecidableEq (Except ε α)
  | .error a, .error b =>
    if h : a = b then .isTrue (by rw [h]) else .isFalse (fun hc => h (by cases hc; rfl))
  | .error _, .ok _ => .isFalse (fun hc => by cases hc)
  | .ok _, .error _ => .isFalse (fun hc => by cases hc)
  | .ok a, .ok b =>
    if h : a = b then .isTrue (by rw [h]) else .isFalse (fun hc => h (by cases hc; rfl))

/-! ## DAG engine (dag.rs) -/

/-- Index of the last occurrence of a name in a list.  This models the
task_indices HashMap of DagEngine.build: every task inserts
name -> index in order, so a later insert overwrites an earlier one. -/
def lastIdxOf : List String → String → Option Nat
  | [], _ => none
  | a :: as, x =>
    match lastIdxOf as x with
    | some i => some (i + 1)
    | none => if a = x then some 0 else none

/-- Edges contributed by one task: for each dependency name, an edge
from the dependency node to the task node, or MissingDependency for
the first unresolved name (dag.rs lines 80 to 96). -/
def depsEdges (names : List String) (tname : String) (ti : Nat) :
    List String → Except PicoFlowError (List (Nat × Nat))
  | [] => .ok []
  | d :: ds =>
    match lastIdxOf names d with
    | some di =>
      match depsEdges names tname ti ds with
      | .ok es => .ok ((di, ti) :: es)
      | .error e => .error e
    | none => .error (.MissingDependency tname d)

/-- Edge construction loop of DagEngine.build over all tasks.  The
task node is task_indices[name], i.e. the last node carrying the name;
the .Other case models the Rust indexing panic and is unreachable when
names lists the name of every task. -/
def buildEdgesAux (names : List String) :
    List TaskConfig → Except PicoFlowError (List (Nat × Nat))
  | [] => .ok []
  | t :: ts =>
    match lastIdxOf names t.name with
    | some ti =>
      match depsEdges names t.name ti t.depends_on with
      | .ok es =>
        match buildEdgesAux names ts with
        | .ok rest => .ok (es ++ rest)
        | .error e => .error e
      | .error e => .error e
    | none => .error (.Other "no entry found for key")

/-- True when node v has no incoming edge from a node of rem. -/
def noIncoming (edges : List (Nat × Nat)) (rem : List Nat) (v : Nat) : Bool :=
  rem.all (fun u => !(decide ((u, v) ∈ edges)))

/-- Kahn topological sort worker: repeatedly output every node of the
remaining set with no incoming edge from the remaining set.  The fuel
argument bounds the number of rounds; each successful round removes at
least one node, so fuel equal to the node count suffices. -/
def kahnAux (edges : List (Nat × Nat)) : Nat → List Nat → Option (List Nat)
  | _, [] => some []
  | 0, _ :: _ => none
  | fuel + 1, v :: vs =>
    let rem := v :: vs
    let srcs := rem.filter (fun w => noIncoming edges rem w)
    let rest := rem.filter (fun w => !(noIncoming edges rem w))
    if srcs.isEmpty then none
    else (kahnAux edges fuel rest).map (fun out => srcs ++ out)

/-- Executable model of petgraph toposort on the graph with nodes
0..n-1 and the given edge list: some order when acyclic, none when a
cycle exists. -/
def kahn (n : Nat) (edges : List (Nat × Nat)) : Option (List Nat) :=
  kahnAux edges n (List.range n)

/-- DagEngine from dag.rs: node labels in insertion order (one node
per task) and the directed edge list over node indices. -/
structure DagEngine where
  labels : List String
  edges : List (Nat × Nat)
deriving DecidableEq, Repr

/-- DagEngine.build from dag.rs: one node per task, an edge from each
dependency to the task, MissingDependency for an unresolved name, then
the acyclicity check of validate_acyclic (is_cyclic_directed, modelled
as failure of the Kahn sort). -/
def DagEngine.build (tasks : List TaskConfig) : Except PicoFlowError DagEngine :=
  let names := tasks.map (fun t => t.name)
  match buildEdgesAux names tasks with
  | .error e => .error e
  | .ok edges =>
    match kahn names.length edges with
    | some _ => .ok ⟨names, edges⟩
    | none => .error (.CycleDetected "cycle")

/-- DagEngine.topological_sort from dag.rs: petgraph toposort mapped
through the node labels. -/
def DagEngine.topological_sort (g : DagEngine) : Except PicoFlowError (List String) :=
  match kahn g.labels.length g.edges with
  | some order => .ok (order.map (fun i => g.labels.getD i ""))
  | none => .error (.CycleDetected "Cycle detected during topological sort")

/-- Incoming neighbour list of a node (neighbors_directed Incoming). -/
def incomingOf (edges : List (Nat × Nat)) (v : Nat) : List Nat :=
  (edges.filter (fun e => decide (e.2 = v))).map (fun e => e.1)

/-- DagEngine.calculate_node_level from dag.rs: zero for a node with
no incoming edge, otherwise one more than the maximal level of an
incoming neighbour.  The Rust recursion terminates because the graph
is acyclic when the method is reached; the embedding bounds the
recursion depth by a fuel argument, and fuel equal to the node count
computes the same fixpoint on acyclic graphs. -/
def levelAux (edges : List (Nat × Nat)) : Nat → Nat → Nat
  | 0, _ => 0
  | fuel + 1, v =>
    (incomingOf edges v).foldr (fun u m => max m (levelAux edges fuel u + 1)) 0

/-- Level of a node of the built graph. -/
def DagEngine.nodeLevel (g : DagEngine) (v : Nat) : Nat :=
  levelAux g.edges g.labels.length v

/-- Largest node level of the graph (zero for the empty graph). -/
def DagEngine.maxLevel (g : DagEngine) : Nat :=
  ((List.range g.labels.length).map (fun v => g.nodeLevel v)).foldr max 0

/-- DagEngine.parallel_levels from dag.rs: nodes grouped by level,
with one bucket per level from 0 to the maximal level (the while loop
growing the levels vector), empty for the empty graph. -/
def DagEngine.parallel_levels (g : DagEngine) : List (List String) :=
  if g.labels.length = 0 then []
  else
    (List.range (g.maxLevel + 1)).map (fun L =>
      ((List.range g.labels.length).filter (fun v => decide (g.nodeLevel v = L))).map
        (fun v => g.labels.getD v ""))

/-- Name-level dependency relation of a task list: depRel tasks d t
holds when some task named t lists d among its dependencies. -/
def depRel (tasks : List TaskConfig) (d t : String) : Prop :=
  ∃ c ∈ tasks, c.name = t ∧ d ∈ c.depends_on

/-- Edge relation of an edge list. -/
def edgeRel (edges : List (Nat × Nat)) (u v : Nat) : Prop :=
  (u, v) ∈ edges

/-- A dependency chain of k edges ending at node v: a list of k
predecessors followed by v, with every consecutive pair an edge. -/
def ChainTo (edges : List (Nat × Nat)) (v : Nat) (k : Nat) : Prop :=
  ∃ l : List Nat,
    List.Chain' (fun a b => (a, b) ∈ edges) (l ++ [v]) ∧ l.length = k

/-- A dependency chain of k edges ending at v whose first node is a
source (no incoming edge at all). -/
def ChainFromSourceTo (edges : List (Nat × Nat)) (v : Nat) (k : Nat) : Prop :=
  ∃ l : List Nat,
    List.Chain' (fun a b => (a, b) ∈ edges) (l ++ [v]) ∧ l.length = k ∧
    ∀ w, (w, (l ++ [v]).headI) ∉ edges

/-- Cycle in the name-level dependency graph of a task list. -/
def HasCycle (tasks : List TaskConfig) : Prop :=
  ∃ nm, Relation.TransGen (depRel tasks) nm nm

/-! ## State store rows (state.rs) -/

/-- One task_executions row.  Timestamps are abstract Nat instants;
the columns retry_count and next_retry_at carry the SQLite defaults 0
and NULL until a write touches them. -/
structure TaskRow where
  task_name : String
  status : TaskStatus
  attempt : Nat
  retry_count : Nat
  completed_at : Option Nat
  exit_code : Option Int
  stdout : Option String
  stderr : Option String
  next_retry_at : Option Nat
deriving DecidableEq, Repr

/-- StateManager.start_task from state.rs: INSERT of a Running row
with the given attempt number; the remaining columns take their
schema defaults. -/
def start_task (task_name : String) (attempt : Nat) : TaskRow :=
  { task_name := task_name, status := .Running, attempt := attempt,
    retry_count := 0, completed_at := none, exit_code := none,
    stdout := none, stderr := none, next_retry_at := none }

/-- StateManager.update_task_status from state.rs: the UPDATE sets
status, exit_code, stdout and stderr unconditionally and writes
completed_at = now for a terminal status and NULL otherwise. -/
def update_task_status (row : TaskRow) (status : TaskStatus)
    (exit_code : Option Int) (stdout stderr : Option String) (now : Nat) : TaskRow :=
  { row with
    status := status,
    completed_at := if status.isTerminal then some now else none,
    exit_code := exit_code, stdout := stdout, stderr := stderr }

/-- StateManager.set_task_retry from state.rs: sets status to
Retrying together with retry_count and next_retry_at. -/
def set_task_retry (row : TaskRow) (retry_count : Nat) (next_retry_at : Nat) : TaskRow :=
  { row with
    status := .Retrying, retry_count := retry_count,
    next_retry_at := some next_retry_at }

/-! ## Retry backoff (retry.rs) and the retry loop (scheduler.rs) -/

/-- calculate_backoff_delay from retry.rs, in whole seconds: the base
delay 1 times 2u64.pow(attempt.saturating_sub(1)), capped at 60.
Truncated Nat subtraction matches saturating_sub exactly; the power is
the plain, non-saturating u64 pow, which overflows for attempt 65 and
beyond (reachable, since a task's retry field is an uncapped u32), so
the model reduces it modulo 2^64.  That follows the release-build
wrapping semantics, under which the computed delay is 0 seconds from
attempt 65 on; a debug build panics on the same overflow instead. -/
def calculate_backoff_delay (attempt : Nat) : Nat :=
  min (1 * (2 ^ (attempt - 1) % 2 ^ 64)) 60

/-- Outcome of one executor attempt as seen by
execute_task_with_retry: either execute_task returned an
ExecutionResult (whose status every executor sets to Success or
Failed), or it returned an error (a timeout when the message contains
"timed out", any other failure otherwise). -/
inductive AttemptOutcome where
  | finished (success : Bool) (exit_code : Option Int) (stdout stderr : Option String)
  | errored (isTimeout : Bool)
deriving DecidableEq, Repr

/-- One recorded attempt of the retry loop: the final state of the
task_executions row the attempt created, and the backoff sleep in
seconds performed after it, when any. -/
structure RetryStep where
  row : TaskRow
  sleep : Option Nat
deriving DecidableEq, Repr

/-- Loop body of TaskScheduler.execute_task_with_retry
(scheduler.rs lines 306 to 409): for attempt in 1..=max_retries+1,
create the row, run the attempt, update the row, and on a
non-final failure either set retry information (executor reported a
non-success status) or just sleep (executor call errored).  The fuel
argument counts the remaining loop iterations. -/
def retryLoop (name : String) (outcome : Nat → AttemptOutcome) (max_retries : Nat) :
    Nat → Nat → List RetryStep × Bool
  | _, 0 => ([], false)
  | attempt, fuel + 1 =>
    let row0 := start_task name attempt
    match outcome attempt with
    | .finished success ec so se =>
      let status := if success then TaskStatus.Success else TaskStatus.Failed
      let row1 := update_task_status row0 status ec so se 0
      if status = .Success then ([⟨row1, none⟩], true)
      else if attempt ≤ max_retries then
        let d := calculate_backoff_delay attempt
        let row2 := set_task_retry row1 (attempt - 1) 0
        let r := retryLoop name outcome max_retries (attempt + 1) fuel
        (⟨row2, some d⟩ :: r.1, r.2)
      else ([⟨row1, none⟩], false)
    | .errored isTimeout =>
      let st := if isTimeout then TaskStatus.Timeout else TaskStatus.Failed
      let row1 := update_task_status row0 st none none (some "Execution error") 0
      if attempt ≤ max_retries then
        let d := calculate_backoff_delay attempt
        let r := retryLoop name outcome max_retries (attempt + 1) fuel
        (⟨row1, some d⟩ :: r.1, r.2)
      else ([⟨row1, none⟩], false)

/-- TaskScheduler.execute_task_with_retry: runs the loop from attempt
1 with max_retries = task.retry or the default 3; returns the list of
attempt records and the success flag. -/
def execute_task_with_retry (task : TaskConfig) (outcome : Nat → AttemptOutcome) :
    List RetryStep × Bool :=
  let max_retries := task.retry.getD 3
  retryLoop task.name outcome max_retries 1 (max_retries + 1)

/-! ## Workflow drivers (scheduler.rs) -/

/-- Result of execute_task_with_retry for one task as observed by the
driving loop: Ok(success flag) or Err (for example a state-store
failure).  A run executes each task at most once, so the outcome is a
function of the task name. -/
inductive TaskResult where
  | ok (success : Bool)
  | err
deriving DecidableEq, Repr

/-- The task_map HashMap of execute_workflow: name to config, a later
task overwriting an earlier one with the same name. -/
def taskMapOf (tasks : List TaskConfig) (nm : String) : TaskConfig :=
  (tasks.reverse.find? (fun t => decide (t.name = nm))).getD default

/-- TaskScheduler.execute_sequential: walk the topological order; on a
failed task stop unless continue_on_failure; an Err from
execute_task_with_retry propagates immediately (the question-mark
operator).  Returns the attempted task names in order and
some success flag, or none for a propagated error. -/
def execSeqAux (tm : String → TaskConfig) (tr : String → TaskResult) :
    List String → Bool → List String × Option Bool
  | [], acc => ([], some acc)
  | nm :: rest, acc =>
    match tr nm with
    | .err => ([nm], none)
    | .ok true =>
      let r := execSeqAux tm tr rest acc
      (nm :: r.1, r.2)
    | .ok false =>
      if (tm nm).continue_on_failure then
        let r := execSeqAux tm tr rest false
        (nm :: r.1, r.2)
      else ([nm], some false)

/-- Sequential driver at the execute_workflow call site. -/
def execute_sequential (tasks : List TaskConfig) (tr : String → TaskResult)
    (order : List String) : List String × Option Bool :=
  execSeqAux (taskMapOf tasks) tr order true

/-- Skip test of execute_parallel (scheduler.rs lines 190 to 204): a
task is skipped when some dependency is in the failed set and that
dependency does not have continue_on_failure. -/
def skipCheck (tm : String → TaskConfig) (failed : List String) (t : TaskConfig) : Bool :=
  t.depends_on.any (fun d => failed.contains d && !(tm d).continue_on_failure)

/-- Dispatch phase of one level: skipped tasks are appended to the
failed set and not spawned; the others are dispatched.  Returns the
dispatched names in level order and the updated failed set. -/
def dispatchLevel (tm : String → TaskConfig) :
    List String → List String → List String × List String
  | [], failed => ([], failed)
  | nm :: rest, failed =>
    if skipCheck tm failed (tm nm) then dispatchLevel tm rest (failed ++ [nm])
    else
      let r := dispatchLevel tm rest failed
      (nm :: r.1, r.2)

/-- Result phase of one level (scheduler.rs lines 264 to 295): walk
the join results in dispatch order; a failure is added to the failed
set, clears workflow success, and stops the run unless
continue_on_failure; an executor error is added to the failed set and
stops the run.  Returns the failed set, the workflow success flag and
whether the run stops here. -/
def processLevelResults (tm : String → TaskConfig) (tr : String → TaskResult) :
    List String → List String → Bool → List String × Bool × Bool
  | [], failed, ws => (failed, ws, false)
  | nm :: rest, failed, ws =>
    match tr nm with
    | .ok true => processLevelResults tm tr rest failed ws
    | .ok false =>
      if (tm nm).continue_on_failure then
        processLevelResults tm tr rest (failed ++ [nm]) false
      else (failed ++ [nm], false, true)
    | .err => (failed ++ [nm], false, true)

/-- TaskScheduler.execute_parallel: level by level, dispatch then
join.  All dispatched tasks of a level are attempted (start_task runs
inside execute_task_with_retry of each spawned activity) even when
the run stops while processing that level.  Returns the attempted
names, the final failed set and the workflow success flag. -/
def execParAux (tm : String → TaskConfig) (tr : String → TaskResult) :
    List (List String) → List String → Bool → List String × List String × Bool
  | [], failed, ws => ([], failed, ws)
  | level :: more, failed, ws =>
    let d := dispatchLevel tm level failed
    let p := processLevelResults tm tr d.1 d.2 ws
    if p.2.2 then (d.1, p.1, p.2.1)
    else
      let r := execParAux tm tr more p.1 p.2.1
      (d.1 ++ r.1, r.2.1, r.2.2)

/-- Parallel driver at the execute_workflow call site. -/
def execute_parallel (tasks : List TaskConfig) (tr : String → TaskResult)
    (levels : List (List String)) : List String × List String × Bool :=
  execParAux (taskMapOf tasks) tr levels [] true

/-! ## Output truncation (executors/mod.rs) -/

/-- True for a UTF-8 continuation byte (0x80 to 0xBF). -/
def isCont (b : Nat) : Bool := decide (0x80 ≤ b) && decide (b ≤ 0xBF)

/-- Valid second byte after a three-byte lead, per the Rust standard
library UTF-8 validation table. -/
def validCont3 (b c : Nat) : Bool :=
  if b = 0xE0 then decide (0xA0 ≤ c) && decide (c ≤ 0xBF)
  else if b = 0xED then decide (0x80 ≤ c) && decide (c ≤ 0x9F)
  else isCont c

/-- Valid second byte after a four-byte lead, per the Rust standard
library UTF-8 validation table. -/
def validCont4 (b c : Nat) : Bool :=
  if b = 0xF0 then decide (0x90 ≤ c) && decide (c ≤ 0xBF)
  else if b = 0xF4 then decide (0x80 ≤ c) && decide (c ≤ 0x8F)
  else isCont c

/-- UTF-8 encoding of U+FFFD, the replacement character. -/
def repl : List Nat := [0xEF, 0xBF, 0xBD]

/-- Byte sequence of String::from_utf8_lossy: valid UTF-8 sequences
are copied, and each maximal invalid subpart (in the sense of the
Rust standard library validator: the error_len prefix, or the
incomplete final sequence) becomes one replacement character. -/
def utf8Lossy : List Nat → List Nat
  | [] => []
  | b :: rest =>
    if b ≤ 0x7F then b :: utf8Lossy rest
    else if 0xC2 ≤ b ∧ b ≤ 0xDF then
      match rest with
      | [] => repl
      | c :: rest2 =>
        if isCont c then b :: c :: utf8Lossy rest2
        else repl ++ utf8Lossy (c :: rest2)
    else if 0xE0 ≤ b ∧ b ≤ 0xEF then
      match rest with
      | [] => repl
      | c :: rest2 =>
        if validCont3 b c then
          match rest2 with
          | [] => repl
          | d :: rest3 =>
            if isCont d then b :: c :: d :: utf8Lossy rest3
            else repl ++ utf8Lossy (d :: rest3)
        else repl ++ utf8Lossy (c :: rest2)
    else if 0xF0 ≤ b ∧ b ≤ 0xF4 then
      match rest with
      | [] => repl
      | c :: rest2 =>
        if validCont4 b c then
          match rest2 with
          | [] => repl
          | d :: rest3 =>
            if isCont d then
              match rest3 with
              | [] => repl
              | e :: rest4 =>
                if isCont e then b :: c :: d :: e :: utf8Lossy rest4
                else repl ++ utf8Lossy (e :: rest4)
            else repl ++ utf8Lossy (d :: rest3)
        else repl ++ utf8Lossy (c :: rest2)
    else repl ++ utf8Lossy rest

/-- The Rust standard library UTF-8 validity check on a byte list. -/
def validUtf8 : List Nat → Bool
  | [] => true
  | b :: rest =>
    if b ≤ 0x7F then validUtf8 rest
    else if 0xC2 ≤ b ∧ b ≤ 0xDF then
      match rest with
      | [] => false
      | c :: rest2 => isCont c && validUtf8 rest2
    else if 0xE0 ≤ b ∧ b ≤ 0xEF then
      match rest with
      | [] => false
      | c :: rest2 =>
        validCont3 b c &&
          match rest2 with
          | [] => false
          | d :: rest3 => isCont d && validUtf8 rest3
    else if 0xF0 ≤ b ∧ b ≤ 0xF4 then
      match rest with
      | [] => false
      | c :: rest2 =>
        validCont4 b c &&
          match rest2 with
          | [] => false
          | d :: rest3 =>
            isCont d &&
              match rest3 with
              | [] => false
              | e :: rest4 => isCont e && validUtf8 rest4
    else false

/-- truncate_output_bytes from executors/mod.rs: keep the first
MAX_OUTPUT_SIZE bytes when the input is strictly larger, then decode
with String::from_utf8_lossy.  The first component is the byte
sequence of the stored string, the second the truncation flag. -/
def truncate_output_bytes (data : List Nat) : List Nat × Bool :=
  let truncated := decide (data.length > MAX_OUTPUT_SIZE)
  let bytes := if truncated then data.take MAX_OUTPUT_SIZE else data
  (utf8Lossy bytes, truncated)

/-! ## Task-name validation (parser.rs) -/

/-- Bool range test on Nat. -/
def between (lo hi n : Nat) : Bool := decide (lo ≤ n) && decide (n ≤ hi)

/-- Modelled from the Rust standard library char::is_alphanumeric
(Unicode Alphabetic together with the number categories Nd, Nl, No).
The model is exact on the Basic Latin and Latin-1 Supplement blocks
(code points up to U+00FF): ASCII digits and letters, the letters
U+00AA, U+00B5, U+00BA, U+00C0 to U+00D6, U+00D8 to U+00F6, U+00F8 to
U+00FF, and the numeric characters U+00B2, U+00B3, U+00B9 and U+00BC
to U+00BE.  Code points above U+00FF are outside the modelled domain
and map to false; theorems about whole names therefore restrict the
name to this domain. -/
def rust_is_alphanumeric (c : Char) : Bool :=
  let n := c.toNat
  between 0x30 0x39 n || between 0x41 0x5A n || between 0x61 0x7A n ||
  n == 0xAA || n == 0xB2 || n == 0xB3 || n == 0xB5 || n == 0xB9 || n == 0xBA ||
  between 0xBC 0xBE n ||
  between 0xC0 0xD6 n || between 0xD8 0xF6 n || between 0xF8 0xFF n

/-- Byte length of a name, as the Rust str::len of its UTF-8 form. -/
def utf8Len (name : List Char) : Nat := (name.map Char.utf8Size).sum

/-- validate_task_name from parser.rs: reject the empty name, a name
longer than 64 bytes, and a name with a character that is neither
alphanumeric (char::is_alphanumeric, hence any Unicode letter or
number) nor an underscore nor a dash. -/
def validate_task_name (name : List Char) : Except PicoFlowError Unit :=
  if name.isEmpty then .error (.InvalidTaskName (String.mk name))
  else if utf8Len name > MAX_TASK_NAME_LEN then
    .error (.TaskNameTooLong (String.mk name) MAX_TASK_NAME_LEN)
  else if name.all (fun c => rust_is_alphanumeric c || c == '_' || c == '-') then .ok ()
  else .error (.InvalidTaskName (String.mk name))

/-- The character class the specification names for task names:
A to Z, a to z, 0 to 9, underscore and dash. -/
def asciiNameClass (c : Char) : Bool :=
  between 0x30 0x39 c.toNat || between 0x41 0x5A c.toNat ||
  between 0x61 0x7A c.toNat || c == '_' || c == '-'

/-! ## Daemon start-up (daemon.rs) -/

/-- Observable environment of the PID-file decisions: whether the PID
file exists, the PID it references, and which PIDs belong to live
processes (kill with signal 0 succeeding or failing with permission
denied). -/
structure DaemonEnv where
  pid_file_exists : Bool
  pid_file_pid : Nat
  pid_live : Nat → Bool

/-- The PID-file gate of Daemon::new (daemon.rs lines 87 to 97): the
constructor returns an error whenever the PID file exists; the file
content and the liveness of the referenced process are not
consulted. -/
def daemon_new_check (env : DaemonEnv) : Except PicoFlowError Unit :=
  if env.pid_file_exists then
    .error (.Other "Daemon already running or stale PID file exists")
  else .ok ()

/-- check_daemon_running from daemon.rs (used by the stop and status
commands): none when the file is absent, the referenced PID when that
process is live, and none (after removing the stale file) when it is
not. -/
def check_daemon_running (env : DaemonEnv) : Option Nat :=
  if env.pid_file_exists then
    if env.pid_live env.pid_file_pid then some env.pid_file_pid else none
  else none

/-! ## Sanity checks -/

example : lastIdxOf ["a", "b", "a"] "a" = some 2 := by decide

example :
    DagEngine.build [⟨"a", [], false, none, none⟩, ⟨"b", ["a"], false, none, none⟩] =
      .ok ⟨["a", "b"], [(0, 1)]⟩ := by decide

example :
    DagEngine.build [⟨"a", ["a"], false, none, none⟩] =
      .error (.CycleDetected "cycle") := by decide

example :
    DagEngine.topological_sort ⟨["a", "b"], [(0, 1)]⟩ = .ok ["a", "b"] := by decide

example :
    DagEngine.parallel_levels ⟨["a", "b", "c"], [(0, 1), (0, 2)]⟩ =
      [["a"], ["b", "c"]] := by decide

example : calculate_backoff_delay 1 = 1 ∧ calculate_backoff_delay 2 = 2 ∧
    calculate_backoff_delay 7 = 60 ∧ calculate_backoff_delay 10 = 60 ∧
    calculate_backoff_delay 64 = 60 ∧ calculate_backoff_delay 65 = 0 ∧
    calculate_backoff_delay 66 = 0 := by decide

example :
    (execute_task_with_retry ⟨"t", [], false, some 1, none⟩
      (fun _ => .finished false (some 1) none none)).2 = false := by decide

example : utf8Lossy [0x61, 0xFF, 0x62] = [0x61, 0xEF, 0xBF, 0xBD, 0x62] := by decide

example : validUtf8 [0xC3, 0xA9] = true ∧ utf8Lossy [0xC3, 0xA9] = [0xC3, 0xA9] := by decide

example : validate_task_name ['a', '_', '1'] = .ok () := by decide

example : validate_task_name ['é'] = .ok () := by decide

example : validate_task_name ['a', ' '] =
    .error (.InvalidTaskName (String.mk ['a', ' '])) := by decide

/-! ## Lemmas about lastIdxOf -/

theorem lastIdxOf_lt_length {l : List String} {x : String} {i : Nat}
    (h : lastIdxOf l x = some i) : i < l.length := by
  induction l generalizing i with
  | nil => simp [lastIdxOf] at h
  | cons a as ih =>
    simp only [lastIdxOf] at h
    cases hr : lastIdxOf as x with
    | some j =>
      rw [hr] at h
      cases h
      simpa using ih hr
    | none =>
      rw [hr] at h
      by_cases hax : a = x
      · simp [hax] at h
        cases h
        simp
      · simp [hax] at h

theorem lastIdxOf_getD {l : List String} {x : String} {i : Nat}
    (h : lastIdxOf l x = some i) (d : String) : l.getD i d = x := by
  induction l generalizing i with
  | nil => simp [lastIdxOf] at h
  | cons a as ih =>
    simp only [lastIdxOf] at h
    cases hr : lastIdxOf as x with
    | some j =>
      rw [hr] at h
      cases h
      simpa using ih hr
    | none =>
      rw [hr] at h
      by_cases hax : a = x
      · simp [hax] at h
        cases h
        simpa using hax
      · simp [hax] at h

theorem lastIdxOf_isSome_of_mem {l : List String} {x : String}
    (h : x ∈ l) : (lastIdxOf l x).isSome := by
  induction l with
  | nil => simp at h
  | cons a as ih =>
    simp only [lastIdxOf]
    cases hr : lastIdxOf as x with
    | some j => simp
    | none =>
      rcases List.mem_cons.mp h with rfl | hmem
      · simp
      · have := ih hmem
        rw [hr] at this
        simp at this

/-! ## Lemmas about the Kahn sort -/

theorem noIncoming_iff {edges : List (Nat × Nat)} {rem : List Nat} {v : Nat} :
    noIncoming edges rem v = true ↔ ∀ u ∈ rem, (u, v) ∉ edges := by
  simp [noIncoming, List.all_eq_true]

theorem kahnAux_perm {edges : List (Nat × Nat)} :
    ∀ {fuel : Nat} {rem out : List Nat},
      kahnAux edges fuel rem = some out → out.Perm rem := by
  intro fuel
  induction fuel with
  | zero =>
    intro rem out h
    cases rem with
    | nil => simp [kahnAux] at h; simp [← h]
    | cons v vs => simp [kahnAux] at h
  | succ f ih =>
    intro rem out h
    cases rem with
    | nil => simp [kahnAux] at h; simp [← h]
    | cons v vs =>
      simp only [kahnAux] at h
      split at h
      · exact absurd h (by simp)
      · rcases Option.map_eq_some'.mp h with ⟨out', hout', rfl⟩
        have hperm := ih hout'
        exact (List.Perm.append_left _ hperm).trans (List.filter_append_perm _ _)

theorem kahnAux_order {edges : List (Nat × Nat)} :
    ∀ {fuel : Nat} {rem out : List Nat},
      kahnAux edges fuel rem = some out → rem.Nodup →
      ∀ {u v : Nat}, (u, v) ∈ edges → u ∈ rem → v ∈ rem →
        out.indexOf u < out.indexOf v := by
  intro fuel
  induction fuel with
  | zero =>
    intro rem out h _ u v _ hu _
    cases rem with
    | nil => simp at hu
    | cons a as => simp [kahnAux] at h
  | succ f ih =>
    intro rem out h hnd u v he hu hv
    cases rem with
    | nil => simp at hu
    | cons a as =>
      simp only [kahnAux] at h
      split at h
      · exact absurd h (by simp)
      · rcases Option.map_eq_some'.mp h with ⟨out', hout', rfl⟩
        have hvns : noIncoming edges (a :: as) v = false := by
          cases hpv : noIncoming edges (a :: as) v with
          | false => rfl
          | true =>
            rw [noIncoming_iff] at hpv
            exact absurd he (hpv u hu)
        have hvmem' : v ∈ (a :: as).filter (fun w => !(noIncoming edges (a :: as) w)) := by
          simp [List.mem_filter, hv, hvns]
        have hvnotin : v ∉ (a :: as).filter (fun w => noIncoming edges (a :: as) w) := by
          simp [List.mem_filter, hvns]
        by_cases hus : noIncoming edges (a :: as) u = true
        · have humem : u ∈ (a :: as).filter (fun w => noIncoming edges (a :: as) w) := by
            simp [List.mem_filter, hu, hus]
          rw [List.indexOf_append_of_mem humem, List.indexOf_append_of_not_mem hvnotin]
          have h1 := List.indexOf_lt_length.mpr humem
          omega
        · have husf : noIncoming edges (a :: as) u = false := by
            cases hpu : noIncoming edges (a :: as) u with
            | false => rfl
            | true => exact absurd hpu hus
          have humem' : u ∈ (a :: as).filter (fun w => !(noIncoming edges (a :: as) w)) := by
            simp [List.mem_filter, hu, husf]
          have hunotin : u ∉ (a :: as).filter (fun w => noIncoming edges (a :: as) w) := by
            simp [List.mem_filter, husf]
          rw [List.indexOf_append_of_not_mem hunotin,
            List.indexOf_append_of_not_mem hvnotin]
          have hnd' := hnd.filter (fun w => !(noIncoming edges (a :: as) w))
          have := ih hout' hnd' he humem' hvmem'
          omega

theorem noIncoming_false_iff {edges : List (Nat × Nat)} {rem : List Nat} {v : Nat} :
    noIncoming edges rem v = false ↔ ∃ u ∈ rem, (u, v) ∈ edges := by
  constructor
  · intro h
    by_contra hn
    push_neg at hn
    have := noIncoming_iff.mpr hn
    rw [h] at this
    cases this
  · rintro ⟨u, hu, he⟩
    cases hx : noIncoming edges rem v with
    | false => rfl
    | true => exact absurd he ((noIncoming_iff.mp hx) u hu)

theorem cycle_of_no_source {edges : List (Nat × Nat)} {rem : List Nat}
    (hne : rem ≠ []) (h : ∀ v ∈ rem, ∃ u ∈ rem, (u, v) ∈ edges) :
    ∃ v, Relation.TransGen (edgeRel edges) v v := by
  have h' : ∀ v : Nat, ∃ u : Nat, v ∈ rem → u ∈ rem ∧ (u, v) ∈ edges := by
    intro v
    by_cases hv : v ∈ rem
    · rcases h v hv with ⟨u, hu, he⟩
      exact ⟨u, fun _ => ⟨hu, he⟩⟩
    · exact ⟨v, fun hmem => absurd hmem hv⟩
  choose f hf using h'
  obtain ⟨v0, hv0⟩ := List.exists_mem_of_ne_nil rem hne
  have hgmem : ∀ k, f^[k] v0 ∈ rem := by
    intro k
    induction k with
    | zero => simpa using hv0
    | succ k ihk =>
      rw [Function.iterate_succ_apply']
      exact (hf (f^[k] v0) ihk).1
  have hgedge : ∀ k, (f^[k + 1] v0, f^[k] v0) ∈ edges := by
    intro k
    rw [Function.iterate_succ_apply']
    exact (hf (f^[k] v0) (hgmem k)).2
  have hchain : ∀ d k, Relation.TransGen (edgeRel edges) (f^[k + d + 1] v0) (f^[k] v0) := by
    intro d
    induction d with
    | zero => intro k; exact Relation.TransGen.single (hgedge k)
    | succ d ihd =>
      intro k
      have h1 : Relation.TransGen (edgeRel edges) (f^[(k + d + 1) + 1] v0) (f^[k + d + 1] v0) :=
        Relation.TransGen.single (hgedge (k + d + 1))
      have h2 := h1.trans (ihd k)
      have heq : k + (d + 1) + 1 = (k + d + 1) + 1 := by omega
      rw [heq]
      exact h2
  have hcard : (rem.toFinset.card) < (Finset.range (rem.toFinset.card + 1)).card := by simp
  obtain ⟨i, _, j, _, hij, heq⟩ :=
    Finset.exists_ne_map_eq_of_card_lt_of_maps_to hcard
      (fun k _ => List.mem_toFinset.mpr (hgmem k))
  rcases Nat.lt_or_ge i j with hlt | hge
  · obtain ⟨d, rfl⟩ : ∃ d, j = i + d + 1 := ⟨j - i - 1, by omega⟩
    refine ⟨f^[i + d + 1] v0, ?_⟩
    have := hchain d i
    rw [heq] at this
    exact this
  · have hlt : j < i := by omega
    obtain ⟨d, rfl⟩ : ∃ d, i = j + d + 1 := ⟨i - j - 1, by omega⟩
    refine ⟨f^[j + d + 1] v0, ?_⟩
    have := hchain d j
    rw [← heq] at this
    exact this

theorem kahnAux_isSome {edges : List (Nat × Nat)}
    (hac : ∀ v, ¬ Relation.TransGen (edgeRel edges) v v) :
    ∀ {fuel : Nat} {rem : List Nat}, rem.Nodup → rem.length ≤ fuel →
      (kahnAux edges fuel rem).isSome := by
  intro fuel
  induction fuel with
  | zero =>
    intro rem _ hlen
    have : rem = [] := List.length_eq_zero.mp (Nat.le_zero.mp hlen)
    subst this
    simp [kahnAux]
  | succ f ih =>
    intro rem hnd hlen
    cases rem with
    | nil => simp [kahnAux]
    | cons a as =>
      simp only [kahnAux]
      have hsrc : ¬ ((a :: as).filter
          (fun w => noIncoming edges (a :: as) w)).isEmpty = true := by
        intro hempty
        rw [List.isEmpty_iff] at hempty
        have hpre : ∀ v ∈ (a :: as), ∃ u ∈ (a :: as), (u, v) ∈ edges := by
          intro v hv
          apply noIncoming_false_iff.mp
          cases hx : noIncoming edges (a :: as) v with
          | false => rfl
          | true =>
            have : v ∈ (a :: as).filter (fun w => noIncoming edges (a :: as) w) :=
              List.mem_filter.mpr ⟨hv, hx⟩
            rw [hempty] at this
            simp at this
        obtain ⟨v, hcyc⟩ := cycle_of_no_source (by simp) hpre
        exact hac v hcyc
      rw [if_neg hsrc]
      have hsplit := List.length_eq_length_filter_add
        (l := a :: as) (fun w => noIncoming edges (a :: as) w)
      have hpos : 0 < ((a :: as).filter (fun w => noIncoming edges (a :: as) w)).length := by
        cases hc : (a :: as).filter (fun w => noIncoming edges (a :: as) w) with
        | nil => rw [hc] at hsrc; simp at hsrc
        | cons x xs => simp [hc]
      have hrest : ((a :: as).filter
          (fun w => !(noIncoming edges (a :: as) w))).length ≤ f := by
        have hlen2 : (a :: as).length ≤ f + 1 := hlen
        omega
      have hnd' := hnd.filter (fun w => !(noIncoming edges (a :: as) w))
      have hsome := ih hnd' hrest
      obtain ⟨out, hout⟩ := Option.isSome_iff_exists.mp hsome
      rw [hout]
      simp

theorem kahn_perm {n : Nat} {edges : List (Nat × Nat)} {out : List Nat}
    (h : kahn n edges = some out) : out.Perm (List.range n) :=
  kahnAux_perm h

theorem kahn_order {n : Nat} {edges : List (Nat × Nat)} {out : List Nat}
    (h : kahn n edges = some out) {u v : Nat} (he : (u, v) ∈ edges)
    (hu : u < n) (hv : v < n) : out.indexOf u < out.indexOf v :=
  kahnAux_order h (List.nodup_range n) he (List.mem_range.mpr hu) (List.mem_range.mpr hv)

theorem kahn_isSome {n : Nat} {edges : List (Nat × Nat)}
    (hac : ∀ v, ¬ Relation.TransGen (edgeRel edges) v v) :
    (kahn n edges).isSome :=
  kahnAux_isSome hac (List.nodup_range n) (by simp)

theorem transGen_indexOf_lt {n : Nat} {edges : List (Nat × Nat)} {out : List Nat}
    (h : kahn n edges = some out)
    (hb : ∀ e ∈ edges, e.1 < n ∧ e.2 < n) :
    ∀ {u v : Nat}, Relation.TransGen (edgeRel edges) u v →
      out.indexOf u < out.indexOf v := by
  intro u v htg
  induction htg with
  | single he => exact kahn_order h he (hb _ he).1 (hb _ he).2
  | tail _ he2 ih => exact ih.trans (kahn_order h he2 (hb _ he2).1 (hb _ he2).2)

theorem acyclic_of_kahn_some {n : Nat} {edges : List (Nat × Nat)} {out : List Nat}
    (h : kahn n edges = some out)
    (hb : ∀ e ∈ edges, e.1 < n ∧ e.2 < n) :
    ∀ v, ¬ Relation.TransGen (edgeRel edges) v v := by
  intro v hcyc
  exact absurd (transGen_indexOf_lt h hb hcyc) (lt_irrefl _)

/-! ## Lemmas about edge construction -/

theorem lastIdxOf_mem {l : List String} {x : String} {i : Nat}
    (h : lastIdxOf l x = some i) : x ∈ l := by
  have hlt := lastIdxOf_lt_length h
  have := lastIdxOf_getD h ""
  rw [List.getD_eq_getElem l "" hlt] at this
  rw [← this]
  exact List.getElem_mem hlt

theorem lastIdxOf_eq_none_iff {l : List String} {x : String} :
    lastIdxOf l x = none ↔ x ∉ l := by
  constructor
  · intro h hmem
    have := lastIdxOf_isSome_of_mem hmem
    rw [h] at this
    simp at this
  · intro hnmem
    cases hr : lastIdxOf l x with
    | none => rfl
    | some i => exact absurd (lastIdxOf_mem hr) hnmem

theorem depsEdges_mem {names : List String} {tname : String} {ti : Nat} :
    ∀ {deps : List String} {es : List (Nat × Nat)},
      depsEdges names tname ti deps = .ok es →
      ∀ e ∈ es, e.2 = ti ∧ ∃ d ∈ deps, lastIdxOf names d = some e.1 := by
  intro deps
  induction deps with
  | nil =>
    intro es h e he
    simp [depsEdges] at h
    subst h
    simp at he
  | cons d ds ih =>
    intro es h e he
    simp only [depsEdges] at h
    cases hli : lastIdxOf names d with
    | none => rw [hli] at h; cases h
    | some di =>
      rw [hli] at h
      cases hrec : depsEdges names tname ti ds with
      | error e2 => rw [hrec] at h; cases h
      | ok es2 =>
        rw [hrec] at h
        cases h
        rcases List.mem_cons.mp he with rfl | hmem
        · exact ⟨rfl, d, List.mem_cons_self d ds, hli⟩
        · rcases ih hrec e hmem with ⟨h2, d2, hd2, hli2⟩
          exact ⟨h2, d2, List.mem_cons_of_mem d hd2, hli2⟩

theorem depsEdges_mem_of {names : List String} {tname : String} {ti : Nat} :
    ∀ {deps : List String} {es : List (Nat × Nat)},
      depsEdges names tname ti deps = .ok es →
      ∀ {d : String}, d ∈ deps → ∀ {di : Nat}, lastIdxOf names d = some di →
      (di, ti) ∈ es := by
  intro deps
  induction deps with
  | nil => intro es _ d hd; simp at hd
  | cons d0 ds ih =>
    intro es h d hd di hdi
    simp only [depsEdges] at h
    cases hli : lastIdxOf names d0 with
    | none => rw [hli] at h; cases h
    | some di0 =>
      rw [hli] at h
      cases hrec : depsEdges names tname ti ds with
      | error e2 => rw [hrec] at h; cases h
      | ok es2 =>
        rw [hrec] at h
        cases h
        rcases List.mem_cons.mp hd with rfl | hmem
        · rw [hli] at hdi
          cases hdi
          exact List.mem_cons_self _ _
        · exact List.mem_cons_of_mem _ (ih hrec hmem hdi)

theorem depsEdges_ok_of_resolve {names : List String} {tname : String} {ti : Nat} :
    ∀ {deps : List String}, (∀ d ∈ deps, (lastIdxOf names d).isSome) →
      ∃ es, depsEdges names tname ti deps = .ok es := by
  intro deps
  induction deps with
  | nil => intro _; exact ⟨[], rfl⟩
  | cons d ds ih =>
    intro h
    obtain ⟨di, hdi⟩ := Option.isSome_iff_exists.mp (h d (List.mem_cons_self d ds))
    obtain ⟨es, hes⟩ := ih (fun d2 hd2 => h d2 (List.mem_cons_of_mem d hd2))
    refine ⟨(di, ti) :: es, ?_⟩
    simp only [depsEdges, hdi, hes]

theorem depsEdges_missing {names : List String} {tname : String} {ti : Nat} :
    ∀ {deps : List String}, (∃ d ∈ deps, lastIdxOf names d = none) →
      ∃ dn, depsEdges names tname ti deps = .error (.MissingDependency tname dn) ∧
        dn ∈ deps ∧ lastIdxOf names dn = none := by
  intro deps
  induction deps with
  | nil => rintro ⟨d, hd, _⟩; simp at hd
  | cons d ds ih =>
    rintro ⟨d0, hd0, hnone⟩
    cases hli : lastIdxOf names d with
    | none =>
      refine ⟨d, ?_, List.mem_cons_self d ds, hli⟩
      simp only [depsEdges, hli]
    | some di =>
      have hd0' : d0 ∈ ds := by
        rcases List.mem_cons.mp hd0 with rfl | hmem
        · rw [hli] at hnone; cases hnone
        · exact hmem
      obtain ⟨dn, hrec, hmem, hn⟩ := ih ⟨d0, hd0', hnone⟩
      refine ⟨dn, ?_, List.mem_cons_of_mem d hmem, hn⟩
      simp only [depsEdges, hli, hrec]

theorem buildEdgesAux_mem {names : List String} :
    ∀ {tasks : List TaskConfig} {es : List (Nat × Nat)},
      buildEdgesAux names tasks = .ok es →
      ∀ e ∈ es, ∃ t ∈ tasks, ∃ d ∈ t.depends_on,
        lastIdxOf names d = some e.1 ∧ lastIdxOf names t.name = some e.2 := by
  intro tasks
  induction tasks with
  | nil =>
    intro es h e he
    simp [buildEdgesAux] at h
    subst h
    simp at he
  | cons t ts ih =>
    intro es h e he
    simp only [buildEdgesAux] at h
    cases hti : lastIdxOf names t.name with
    | none => rw [hti] at h; cases h
    | some ti =>
      rw [hti] at h
      dsimp only at h
      cases hde : depsEdges names t.name ti t.depends_on with
      | error e2 => rw [hde] at h; cases h
      | ok es1 =>
        rw [hde] at h
        cases hrec : buildEdgesAux names ts with
        | error e2 => rw [hrec] at h; cases h
        | ok es2 =>
          rw [hrec] at h
          cases h
          rcases List.mem_append.mp he with h1 | h2
          · rcases depsEdges_mem hde e h1 with ⟨h2ti, d, hd, hli⟩
            refine ⟨t, List.mem_cons_self t ts, d, hd, hli, ?_⟩
            rw [h2ti]
            exact hti
          · rcases ih hrec e h2 with ⟨t2, ht2, d, hd, hli, hli2⟩
            exact ⟨t2, List.mem_cons_of_mem t ht2, d, hd, hli, hli2⟩

theorem buildEdgesAux_mem_of {names : List String} :
    ∀ {tasks : List TaskConfig} {es : List (Nat × Nat)},
      buildEdgesAux names tasks = .ok es →
      ∀ {t : TaskConfig}, t ∈ tasks → ∀ {d : String}, d ∈ t.depends_on →
      ∀ {di ti : Nat}, lastIdxOf names d = some di →
        lastIdxOf names t.name = some ti → (di, ti) ∈ es := by
  intro tasks
  induction tasks with
  | nil => intro es _ t ht; simp at ht
  | cons t0 ts ih =>
    intro es h t ht d hd di ti hdi hti
    simp only [buildEdgesAux] at h
    cases hti0 : lastIdxOf names t0.name with
    | none => rw [hti0] at h; cases h
    | some ti0 =>
      rw [hti0] at h
      dsimp only at h
      cases hde : depsEdges names t0.name ti0 t0.depends_on with
      | error e2 => rw [hde] at h; cases h
      | ok es1 =>
        rw [hde] at h
        cases hrec : buildEdgesAux names ts with
        | error e2 => rw [hrec] at h; cases h
        | ok es2 =>
          rw [hrec] at h
          cases h
          rcases List.mem_cons.mp ht with rfl | hmem
          · rw [hti0] at hti
            cases hti
            exact List.mem_append_left _ (depsEdges_mem_of hde hd hdi)
          · exact List.mem_append_right _ (ih hrec hmem hd hdi hti)

theorem buildEdgesAux_ok {names : List String} :
    ∀ {tasks : List TaskConfig},
      (∀ t ∈ tasks, (lastIdxOf names t.name).isSome) →
      (∀ t ∈ tasks, ∀ d ∈ t.depends_on, (lastIdxOf names d).isSome) →
      ∃ es, buildEdgesAux names tasks = .ok es := by
  intro tasks
  induction tasks with
  | nil => intro _ _; exact ⟨[], rfl⟩
  | cons t ts ih =>
    intro hname hdep
    obtain ⟨ti, hti⟩ := Option.isSome_iff_exists.mp (hname t (List.mem_cons_self t ts))
    obtain ⟨es1, hes1⟩ := @depsEdges_ok_of_resolve names t.name ti t.depends_on
      (fun d hd => hdep t (List.mem_cons_self t ts) d hd)
    obtain ⟨es2, hes2⟩ := ih
      (fun t2 ht2 => hname t2 (List.mem_cons_of_mem t ht2))
      (fun t2 ht2 d hd => hdep t2 (List.mem_cons_of_mem t ht2) d hd)
    exact ⟨es1 ++ es2, by simp only [buildEdgesAux, hti, hes1, hes2]⟩

theorem buildEdgesAux_missing {names : List String} :
    ∀ {tasks : List TaskConfig},
      (∀ t ∈ tasks, (lastIdxOf names t.name).isSome) →
      (∃ t ∈ tasks, ∃ d ∈ t.depends_on, lastIdxOf names d = none) →
      ∃ tn dn, buildEdgesAux names tasks = .error (.MissingDependency tn dn) ∧
        ∃ t ∈ tasks, t.name = tn ∧ dn ∈ t.depends_on ∧ lastIdxOf names dn = none := by
  intro tasks
  induction tasks with
  | nil => rintro _ ⟨t, ht, _⟩; simp at ht
  | cons t0 ts ih =>
    rintro hname ⟨t, ht, d, hd, hnone⟩
    obtain ⟨ti0, hti0⟩ := Option.isSome_iff_exists.mp (hname t0 (List.mem_cons_self t0 ts))
    by_cases hmiss : ∃ d0 ∈ t0.depends_on, lastIdxOf names d0 = none
    · obtain ⟨dn, hde, hmem, hn⟩ := @depsEdges_missing names t0.name ti0 t0.depends_on hmiss
      refine ⟨t0.name, dn, ?_, t0, List.mem_cons_self t0 ts, rfl, hmem, hn⟩
      simp only [buildEdgesAux, hti0, hde]
    · have ht' : t ∈ ts := by
        rcases List.mem_cons.mp ht with rfl | hmem
        · exact absurd ⟨d, hd, hnone⟩ hmiss
        · exact hmem
      obtain ⟨es1, hes1⟩ := @depsEdges_ok_of_resolve names t0.name ti0 t0.depends_on
        (fun d0 hd0 => by
          cases hx : lastIdxOf names d0 with
          | none => exact absurd ⟨d0, hd0, hx⟩ hmiss
          | some i => simp)
      obtain ⟨tn, dn, hrec, t2, ht2, hn2, hm2, hnone2⟩ :=
        ih (fun t2 ht2 => hname t2 (List.mem_cons_of_mem t0 ht2)) ⟨t, ht', d, hd, hnone⟩
      refine ⟨tn, dn, ?_, t2, List.mem_cons_of_mem t0 ht2, hn2, hm2, hnone2⟩
      simp only [buildEdgesAux, hti0, hes1, hrec]

theorem depsEdges_resolves {names : List String} {tname : String} {ti : Nat} :
    ∀ {deps : List String} {es : List (Nat × Nat)},
      depsEdges names tname ti deps = .ok es →
      ∀ d ∈ deps, (lastIdxOf names d).isSome := by
  intro deps
  induction deps with
  | nil => intro es _ d hd; simp at hd
  | cons d0 ds ih =>
    intro es h d hd
    simp only [depsEdges] at h
    cases hli : lastIdxOf names d0 with
    | none => rw [hli] at h; cases h
    | some di0 =>
      rw [hli] at h
      cases hrec : depsEdges names tname ti ds with
      | error e2 => rw [hrec] at h; cases h
      | ok es2 =>
        rcases List.mem_cons.mp hd with rfl | hmem
        · rw [hli]; simp
        · exact ih hrec d hmem

theorem buildEdgesAux_resolves {names : List String} :
    ∀ {tasks : List TaskConfig} {es : List (Nat × Nat)},
      buildEdgesAux names tasks = .ok es →
      ∀ t ∈ tasks, (lastIdxOf names t.name).isSome ∧
        ∀ d ∈ t.depends_on, (lastIdxOf names d).isSome := by
  intro tasks
  induction tasks with
  | nil => intro es _ t ht; simp at ht
  | cons t0 ts ih =>
    intro es h t ht
    simp only [buildEdgesAux] at h
    cases hti0 : lastIdxOf names t0.name with
    | none => rw [hti0] at h; cases h
    | some ti0 =>
      rw [hti0] at h
      dsimp only at h
      cases hde : depsEdges names t0.name ti0 t0.depends_on with
      | error e2 => rw [hde] at h; cases h
      | ok es1 =>
        rw [hde] at h
        cases hrec : buildEdgesAux names ts with
        | error e2 => rw [hrec] at h; cases h
        | ok es2 =>
          rcases List.mem_cons.mp ht with rfl | hmem
          · exact ⟨by rw [hti0]; simp, depsEdges_resolves hde⟩
          · exact ih hrec t hmem

theorem build_ok_elim {tasks : List TaskConfig} {g : DagEngine}
    (h : DagEngine.build tasks = .ok g) :
    g.labels = tasks.map (fun t => t.name) ∧
    buildEdgesAux (tasks.map (fun t => t.name)) tasks = .ok g.edges ∧
    (kahn (tasks.map (fun t => t.name)).length g.edges).isSome := by
  simp only [DagEngine.build] at h
  cases hbe : buildEdgesAux (tasks.map fun t => t.name) tasks with
  | error e => rw [hbe] at h; cases h
  | ok es =>
    rw [hbe] at h
    dsimp only at h
    cases hk : kahn (tasks.map fun t => t.name).length es with
    | none => rw [hk] at h; cases h
    | some out =>
      rw [hk] at h
      dsimp only at h
      injection h with h2
      subst h2
      refine ⟨rfl, rfl, ?_⟩
      show (kahn (List.map (fun t => t.name) tasks).length es).isSome = true
      rw [hk]
      rfl

theorem build_edges_bound {tasks : List TaskConfig} {g : DagEngine}
    (h : DagEngine.build tasks = .ok g) :
    ∀ e ∈ g.edges, e.1 < g.labels.length ∧ e.2 < g.labels.length := by
  obtain ⟨hl, hbe, _⟩ := build_ok_elim h
  intro e he
  rcases buildEdgesAux_mem hbe e he with ⟨t, _, d, _, h1, h2⟩
  rw [hl]
  exact ⟨lastIdxOf_lt_length h1, lastIdxOf_lt_length h2⟩

theorem build_acyclic {tasks : List TaskConfig} {g : DagEngine}
    (h : DagEngine.build tasks = .ok g) :
    ∀ v, ¬ Relation.TransGen (edgeRel g.edges) v v := by
  obtain ⟨hl, _, hk⟩ := build_ok_elim h
  obtain ⟨out, hout⟩ := Option.isSome_iff_exists.mp hk
  apply acyclic_of_kahn_some hout
  intro e he
  have hb := build_edges_bound h e he
  rw [hl] at hb
  exact hb

theorem map_getD_range {α : Type} (l : List α) (d : α) :
    (List.range l.length).map (fun i => l.getD i d) = l := by
  induction l with
  | nil => simp
  | cons a as ih =>
    rw [List.length_cons, List.range_succ_eq_map]
    simp only [List.map_cons, List.map_map, List.getD_cons_zero]
    congr 1

/-- C1: for every task list on which DagEngine.build succeeds,
topological_sort returns Ok with a list that is a permutation of all
task names and in which, for every task and every name in the
depends_on of that task, the dependency name appears at a strictly
earlier position than the task name. -/
theorem c1_topological_sort_correct {tasks : List TaskConfig} {g : DagEngine}
    (h : DagEngine.build tasks = .ok g) :
    ∃ order, DagEngine.topological_sort g = .ok order ∧
      order.Perm (tasks.map (fun t => t.name)) ∧
      ∀ t ∈ tasks, ∀ d ∈ t.depends_on, ∃ i j : Nat, i < j ∧
        order[i]? = some d ∧ order[j]? = some t.name := by
  obtain ⟨hl, hbe, hk⟩ := build_ok_elim h
  obtain ⟨out, hout⟩ := Option.isSome_iff_exists.mp hk
  refine ⟨out.map (fun i => g.labels.getD i ""), ?_, ?_, ?_⟩
  · simp only [DagEngine.topological_sort]
    rw [hl, hout]
  · have h2 := (kahn_perm hout).map (fun i => (tasks.map (fun t => t.name)).getD i "")
    rw [map_getD_range] at h2
    rw [hl]
    exact h2
  · intro t ht d hd
    have hres := buildEdgesAux_resolves hbe t ht
    obtain ⟨ti, hti⟩ := Option.isSome_iff_exists.mp hres.1
    obtain ⟨di, hdi⟩ := Option.isSome_iff_exists.mp (hres.2 d hd)
    have hedge : (di, ti) ∈ g.edges := buildEdgesAux_mem_of hbe ht hd hdi hti
    have hdin := lastIdxOf_lt_length hdi
    have htin := lastIdxOf_lt_length hti
    have hord := kahn_order hout hedge hdin htin
    have hmemd : di ∈ out := (kahn_perm hout).mem_iff.mpr (List.mem_range.mpr hdin)
    have hmemt : ti ∈ out := (kahn_perm hout).mem_iff.mpr (List.mem_range.mpr htin)
    refine ⟨out.indexOf di, out.indexOf ti, hord, ?_, ?_⟩
    · rw [List.getElem?_map, List.getElem?_indexOf hmemd]
      simp only [Option.map_some']
      rw [hl]
      rw [lastIdxOf_getD hdi ""]
    · rw [List.getElem?_map, List.getElem?_indexOf hmemt]
      simp only [Option.map_some']
      rw [hl]
      rw [lastIdxOf_getD hti ""]

/-- Witness for C1 at the concrete workflow with tasks a and b where
b depends on a. -/
theorem c1_witness :
    ∃ order,
      DagEngine.topological_sort ⟨["a", "b"], [(0, 1)]⟩ = .ok order ∧
      order.Perm ([(⟨"a", [], false, none, none⟩ : TaskConfig),
        ⟨"b", ["a"], false, none, none⟩].map (fun t => t.name)) ∧
      ∀ t ∈ [(⟨"a", [], false, none, none⟩ : TaskConfig),
          ⟨"b", ["a"], false, none, none⟩],
        ∀ d ∈ t.depends_on, ∃ i j : Nat, i < j ∧
          order[i]? = some d ∧ order[j]? = some t.name :=
  c1_topological_sort_correct (by decide)

/-- C4 (amended): DagEngine.build returns MissingDependency whenever
some task names a dependency that is not a task name; when every
dependency resolves, it returns CycleDetected exactly on task lists
whose dependency graph has a cycle, and succeeds on the others.  (An
input with an unresolved dependency fails with MissingDependency even
when its graph is acyclic, and even when it also has a cycle.) -/
theorem c4_build_errors (tasks : List TaskConfig) :
    ((∃ t ∈ tasks, ∃ d ∈ t.depends_on, d ∉ tasks.map (fun t => t.name)) →
      ∃ tn dn, DagEngine.build tasks = .error (.MissingDependency tn dn) ∧
        ∃ t ∈ tasks, t.name = tn ∧ dn ∈ t.depends_on ∧
          dn ∉ tasks.map (fun t => t.name)) ∧
    ((∀ t ∈ tasks, ∀ d ∈ t.depends_on, d ∈ tasks.map (fun t => t.name)) →
      HasCycle tasks →
      ∃ p, DagEngine.build tasks = .error (.CycleDetected p)) ∧
    ((∀ t ∈ tasks, ∀ d ∈ t.depends_on, d ∈ tasks.map (fun t => t.name)) →
      ¬ HasCycle tasks → ∃ g, DagEngine.build tasks = .ok g) := by
  have hname : ∀ t ∈ tasks, (lastIdxOf (tasks.map (fun t => t.name)) t.name).isSome :=
    fun t ht => lastIdxOf_isSome_of_mem (List.mem_map_of_mem _ ht)
  refine ⟨?_, ?_, ?_⟩
  · rintro ⟨t, ht, d, hd, hnot⟩
    have hn : lastIdxOf (tasks.map (fun t => t.name)) d = none :=
      lastIdxOf_eq_none_iff.mpr hnot
    obtain ⟨tn, dn, herr, t2, ht2, hn2, hm2, hnone2⟩ :=
      buildEdgesAux_missing hname ⟨t, ht, d, hd, hn⟩
    refine ⟨tn, dn, ?_, t2, ht2, hn2, hm2, lastIdxOf_eq_none_iff.mp hnone2⟩
    simp only [DagEngine.build, herr]
  · rintro hdep ⟨nm, hcyc⟩
    have hdepSome : ∀ t ∈ tasks, ∀ d ∈ t.depends_on,
        (lastIdxOf (tasks.map (fun t => t.name)) d).isSome :=
      fun t ht d hd => lastIdxOf_isSome_of_mem (hdep t ht d hd)
    obtain ⟨es, hes⟩ := buildEdgesAux_ok hname hdepSome
    have hstep : ∀ a b, depRel tasks a b →
        edgeRel es ((lastIdxOf (tasks.map (fun t => t.name)) a).getD 0)
          ((lastIdxOf (tasks.map (fun t => t.name)) b).getD 0) := by
      rintro a b ⟨c, hc, hcb, hmem⟩
      obtain ⟨ai, hai⟩ := Option.isSome_iff_exists.mp
        (lastIdxOf_isSome_of_mem (hdep c hc a hmem))
      obtain ⟨bi, hbi⟩ := Option.isSome_iff_exists.mp (hname c hc)
      rw [← hcb]
      rw [hai, hbi]
      exact buildEdgesAux_mem_of hes hc hmem hai hbi
    have hnodecyc :=
      Relation.TransGen.lift
        (fun nm => (lastIdxOf (tasks.map (fun t => t.name)) nm).getD 0) hstep hcyc
    cases hk : kahn (tasks.map (fun t => t.name)).length es with
    | some out =>
      have hb : ∀ e ∈ es, e.1 < (tasks.map (fun t => t.name)).length ∧
          e.2 < (tasks.map (fun t => t.name)).length := by
        intro e he
        rcases buildEdgesAux_mem hes e he with ⟨t2, _, d2, _, h1, h2⟩
        exact ⟨lastIdxOf_lt_length h1, lastIdxOf_lt_length h2⟩
      exact absurd hnodecyc (acyclic_of_kahn_some hk hb _)
    | none =>
      refine ⟨"cycle", ?_⟩
      simp only [DagEngine.build, hes, hk]
  · intro hdep hnocyc
    have hdepSome : ∀ t ∈ tasks, ∀ d ∈ t.depends_on,
        (lastIdxOf (tasks.map (fun t => t.name)) d).isSome :=
      fun t ht d hd => lastIdxOf_isSome_of_mem (hdep t ht d hd)
    obtain ⟨es, hes⟩ := buildEdgesAux_ok hname hdepSome
    have hac : ∀ v, ¬ Relation.TransGen (edgeRel es) v v := by
      intro v hv
      have hstep2 : ∀ a b, edgeRel es a b →
          depRel tasks ((tasks.map (fun t => t.name)).getD a "")
            ((tasks.map (fun t => t.name)).getD b "") := by
        intro a b he
        rcases buildEdgesAux_mem hes (a, b) he with ⟨t, ht, d, hd, h1, h2⟩
        refine ⟨t, ht, (lastIdxOf_getD h2 "").symm ▸ rfl, ?_⟩
        rw [lastIdxOf_getD h1 ""]
        exact hd
      have := Relation.TransGen.lift
        (fun i => (tasks.map (fun t => t.name)).getD i "") hstep2 hv
      exact hnocyc ⟨_, this⟩
    obtain ⟨out, hk⟩ := Option.isSome_iff_exists.mp
      (kahn_isSome (n := (tasks.map (fun t => t.name)).length) hac)
    refine ⟨⟨tasks.map (fun t => t.name), es⟩, ?_⟩
    simp only [DagEngine.build, hes, hk]

/-- Counterexample for C4 as stated: a single task b depending on the
unknown name a has an acyclic dependency graph, yet build fails (with
MissingDependency), contradicting the conjunct that every input whose
dependency graph has no cycle succeeds. -/
theorem c4_counterexample :
    (¬ HasCycle [(⟨"b", ["a"], false, none, none⟩ : TaskConfig)]) ∧
    ∀ g, DagEngine.build [(⟨"b", ["a"], false, none, none⟩ : TaskConfig)] ≠ .ok g := by
  constructor
  · rintro ⟨nm, hcyc⟩
    have hchar : ∀ x y,
        Relation.TransGen (depRel [(⟨"b", ["a"], false, none, none⟩ : TaskConfig)]) x y →
        x = "a" ∧ y = "b" := by
      intro x y htg
      induction htg with
      | single hr =>
        rcases hr with ⟨c, hc, hcy, hmem⟩
        simp only [List.mem_singleton] at hc
        subst hc
        simp only [List.mem_singleton] at hmem
        exact ⟨hmem, hcy.symm⟩
      | tail htg2 hr ih =>
        rcases hr with ⟨c, hc, hcy, hmem⟩
        simp only [List.mem_singleton] at hc
        subst hc
        simp only [List.mem_singleton] at hmem
        have hba : ("b" : String) = "a" := by
          rw [← ih.2]
          exact hmem
        exact absurd hba (by decide)
    have hthis := hchar nm nm hcyc
    have : ("a" : String) = "b" := by
      rw [← hthis.1, hthis.2]
    exact absurd this (by decide)
  · intro g hg
    have hb : DagEngine.build [(⟨"b", ["a"], false, none, none⟩ : TaskConfig)] =
        .error (.MissingDependency "b" "a") := by decide
    rw [hb] at hg
    cases hg

/-- Witness for C4 at three concrete inputs: a missing dependency, a
self-cycle, and a dependency-free task. -/
theorem c4_witness :
    (∃ tn dn, DagEngine.build [(⟨"b", ["a"], false, none, none⟩ : TaskConfig)] =
        .error (.MissingDependency tn dn) ∧
      ∃ t ∈ [(⟨"b", ["a"], false, none, none⟩ : TaskConfig)], t.name = tn ∧
        dn ∈ t.depends_on ∧
        dn ∉ [(⟨"b", ["a"], false, none, none⟩ : TaskConfig)].map (fun t => t.name)) ∧
    (∃ p, DagEngine.build [(⟨"a", ["a"], false, none, none⟩ : TaskConfig)] =
      .error (.CycleDetected p)) ∧
    (∃ g, DagEngine.build [(⟨"a", [], false, none, none⟩ : TaskConfig)] = .ok g) := by
  refine ⟨(c4_build_errors _).1 ?_, (c4_build_errors _).2.1 ?_ ?_,
    (c4_build_errors _).2.2 ?_ ?_⟩
  · exact ⟨(⟨"b", ["a"], false, none, none⟩ : TaskConfig), by simp, "a", by simp, by decide⟩
  · intro t ht d hd
    simp only [List.mem_singleton] at ht
    subst ht
    simp only [List.mem_singleton] at hd
    subst hd
    decide
  · exact ⟨"a", Relation.TransGen.single
      ⟨(⟨"a", ["a"], false, none, none⟩ : TaskConfig), by simp, rfl, by simp⟩⟩
  · intro t ht d hd
    simp only [List.mem_singleton] at ht
    subst ht
    simp at hd
  · rintro ⟨nm, h⟩
    have hnone : ∀ x y : String,
        ¬ Relation.TransGen
          (depRel [(⟨"a", [], false, none, none⟩ : TaskConfig)]) x y := by
      intro x y hxy
      induction hxy with
      | single hr =>
        rcases hr with ⟨c, hc, _, hmem⟩
        simp only [List.mem_singleton] at hc
        subst hc
        simp at hmem
      | tail _ hr _ =>
        rcases hr with ⟨c, hc, _, hmem⟩
        simp only [List.mem_singleton] at hc
        subst hc
        simp at hmem
    exact hnone nm nm h

/-! ## Lemmas about parallel levels -/

theorem foldr_max_ge {l : List Nat} {g : Nat → Nat} {x : Nat} (hx : x ∈ l) :
    g x ≤ l.foldr (fun u m => max m (g u)) 0 := by
  induction l with
  | nil => simp at hx
  | cons a as ih =>
    simp only [List.foldr_cons]
    rcases List.mem_cons.mp hx with rfl | hmem
    · exact le_max_right _ _
    · exact le_trans (ih hmem) (le_max_left _ _)

theorem foldr_max_cases {l : List Nat} {g : Nat → Nat} :
    l.foldr (fun u m => max m (g u)) 0 = 0 ∨
    ∃ x ∈ l, l.foldr (fun u m => max m (g u)) 0 = g x := by
  induction l with
  | nil => left; rfl
  | cons a as ih =>
    simp only [List.foldr_cons]
    rcases ih with h0 | ⟨x, hx, hfx⟩
    · rw [h0]
      right
      exact ⟨a, List.mem_cons_self a as, by simp⟩
    · rw [hfx]
      rcases le_total (g x) (g a) with hle | hle
      · right
        exact ⟨a, List.mem_cons_self a as, max_eq_right hle⟩
      · right
        exact ⟨x, List.mem_cons_of_mem a hx, max_eq_left hle⟩

theorem foldr_max_congr {l : List Nat} {g1 g2 : Nat → Nat}
    (h : ∀ u ∈ l, g1 u = g2 u) :
    l.foldr (fun u m => max m (g1 u)) 0 = l.foldr (fun u m => max m (g2 u)) 0 := by
  induction l with
  | nil => rfl
  | cons a as ih =>
    simp only [List.foldr_cons]
    rw [ih (fun u hu => h u (List.mem_cons_of_mem a hu)),
      h a (List.mem_cons_self a as)]

theorem le_foldr_max {l : List Nat} {x : Nat} (hx : x ∈ l) : x ≤ l.foldr max 0 := by
  induction l with
  | nil => simp at hx
  | cons a as ih =>
    simp only [List.foldr_cons]
    rcases List.mem_cons.mp hx with rfl | hmem
    · exact le_max_left _ _
    · exact le_trans (ih hmem) (le_max_right _ _)

theorem mem_incomingOf {edges : List (Nat × Nat)} {u v : Nat} :
    u ∈ incomingOf edges v ↔ (u, v) ∈ edges := by
  simp only [incomingOf, List.mem_map, List.mem_filter, decide_eq_true_eq]
  constructor
  · rintro ⟨⟨a, b⟩, ⟨hmem, hb⟩, rfl⟩
    simp only at hb
    simp only
    rw [← hb]
    exact hmem
  · intro h
    exact ⟨(u, v), ⟨h, rfl⟩, rfl⟩

theorem incomingOf_eq_nil_iff {edges : List (Nat × Nat)} {v : Nat} :
    incomingOf edges v = [] ↔ ∀ w, (w, v) ∉ edges := by
  rw [List.eq_nil_iff_forall_not_mem]
  constructor
  · intro h w hw
    exact h w (mem_incomingOf.mpr hw)
  · intro h w hw
    exact h w (mem_incomingOf.mp hw)

theorem levelAux_stable {n : Nat} {edges : List (Nat × Nat)} {out : List Nat}
    (hout : kahn n edges = some out)
    (hb : ∀ e ∈ edges, e.1 < n ∧ e.2 < n) :
    ∀ k v, out.indexOf v = k → ∀ f g, k < f → k < g →
      levelAux edges f v = levelAux edges g v := by
  intro k
  induction k using Nat.strong_induction_on with
  | _ k ih =>
    intro v hk f g hf hg
    obtain ⟨f2, rfl⟩ : ∃ f2, f = f2 + 1 := ⟨f - 1, by omega⟩
    obtain ⟨g2, rfl⟩ : ∃ g2, g = g2 + 1 := ⟨g - 1, by omega⟩
    simp only [levelAux]
    apply foldr_max_congr
    intro u hu
    have he : (u, v) ∈ edges := mem_incomingOf.mp hu
    have hun := (hb _ he).1
    have hvn := (hb _ he).2
    have hord := kahn_order hout he hun hvn
    rw [hk] at hord
    have h1 := ih (out.indexOf u) hord u rfl f2 g2 (by omega) (by omega)
    rw [h1]

theorem chainTo_le_levelAux {edges : List (Nat × Nat)} :
    ∀ {k : Nat} {fuel v : Nat}, ChainTo edges v k → k ≤ fuel →
      k ≤ levelAux edges fuel v := by
  intro k
  induction k with
  | zero => intro fuel v _ _; exact Nat.zero_le _
  | succ k ih =>
    rintro fuel v ⟨l, hchain, hlen⟩ hkf
    obtain ⟨f2, rfl⟩ : ∃ f2, fuel = f2 + 1 := ⟨fuel - 1, by omega⟩
    rcases List.eq_nil_or_concat l with rfl | ⟨l2, u, rfl⟩
    · simp at hlen
    · rw [List.concat_eq_append] at hchain hlen
      rw [List.length_append] at hlen
      simp only [List.length_singleton] at hlen
      have hl2 : l2.length = k := by omega
      rw [List.chain'_append] at hchain
      obtain ⟨hc1, hc2, hc3⟩ := hchain
      have hedge : (u, v) ∈ edges := by
        have := hc3 u (by simp) v (by simp)
        exact this
      have hchainu : ChainTo edges u k := ⟨l2, hc1, hl2⟩
      have hih := @ih f2 u hchainu (by omega)
      have hmem : u ∈ incomingOf edges v := mem_incomingOf.mpr hedge
      have hge : levelAux edges f2 u + 1 ≤
          (incomingOf edges v).foldr (fun w m => max m (levelAux edges f2 w + 1)) 0 :=
        foldr_max_ge (g := fun w => levelAux edges f2 w + 1) hmem
      simp only [levelAux]
      omega

theorem headI_append_singleton_append {l : List Nat} {a : Nat} {tail : List Nat} :
    ((l ++ [a]) ++ tail).headI = (l ++ [a]).headI := by
  cases l with
  | nil => simp
  | cons x xs => simp

theorem levelAux_chain {n : Nat} {edges : List (Nat × Nat)} {out : List Nat}
    (hout : kahn n edges = some out)
    (hb : ∀ e ∈ edges, e.1 < n ∧ e.2 < n) :
    ∀ k v, out.indexOf v = k → v < n →
      ChainFromSourceTo edges v (levelAux edges n v) := by
  intro k
  induction k using Nat.strong_induction_on with
  | _ k ih =>
    intro v hk hv
    obtain ⟨n2, hn2⟩ : ∃ n2, n = n2 + 1 := ⟨n - 1, by omega⟩
    cases hinc : incomingOf edges v with
    | nil =>
      have hlv : levelAux edges n v = 0 := by
        rw [hn2]
        simp only [levelAux, hinc, List.foldr_nil]
      rw [hlv]
      exact ⟨[], by simp, rfl, by
        intro w
        simp only [List.nil_append, List.headI_cons]
        exact incomingOf_eq_nil_iff.mp hinc w⟩
    | cons p ps =>
      have hlv : levelAux edges n v =
          (incomingOf edges v).foldr (fun u m => max m (levelAux edges n2 u + 1)) 0 := by
        rw [hn2]
        rfl
      rcases foldr_max_cases (l := incomingOf edges v)
          (g := fun u => levelAux edges n2 u + 1) with h0 | ⟨u, hu, hfx⟩
      · exfalso
        have : levelAux edges n2 p + 1 ≤ 0 := by
          rw [← h0]
          exact foldr_max_ge (l := incomingOf edges v)
            (g := fun u => levelAux edges n2 u + 1) (x := p)
            (by rw [hinc]; exact List.mem_cons_self p ps)
        omega
      · have hedge : (u, v) ∈ edges := mem_incomingOf.mp hu
        have hun := (hb _ hedge).1
        have hvn := (hb _ hedge).2
        have hord := kahn_order hout hedge hun hvn
        rw [hk] at hord
        have hvpos : out.indexOf v < n := by
          rw [hk]
          have hmemv : v ∈ out := (kahn_perm hout).mem_iff.mpr (List.mem_range.mpr hv)
          have := List.indexOf_lt_length.mpr hmemv
          have hlen : out.length = n := by
            have := (kahn_perm hout).length_eq
            simpa using this
          omega
        have hstab : levelAux edges n2 u = levelAux edges n u := by
          apply levelAux_stable hout hb (out.indexOf u) u rfl
          · rw [hk] at hvpos
            omega
          · rw [hk] at hvpos
            omega
        obtain ⟨l, hchain, hlen, hsrc⟩ := ih (out.indexOf u) hord u rfl hun
        refine ⟨l ++ [u], ?_, ?_, ?_⟩
        · rw [List.chain'_append]
          refine ⟨hchain, by simp, ?_⟩
          intro x hx y hy
          simp only [List.getLast?_concat, Option.mem_def, Option.some.injEq] at hx
          simp only [List.head?_cons, Option.mem_def, Option.some.injEq] at hy
          rw [← hx, ← hy]
          exact hedge
        · rw [List.length_append, List.length_singleton, hlen, ← hstab, hlv, hfx]
        · rw [headI_append_singleton_append]
          exact hsrc

theorem foldr_max_mem (l : List Nat) : l.foldr max 0 = 0 ∨ l.foldr max 0 ∈ l := by
  induction l with
  | nil => left; rfl
  | cons a as ih =>
    simp only [List.foldr_cons]
    rcases ih with h0 | hmem
    · rw [h0]
      rcases Nat.eq_zero_or_pos a with rfl | _
      · left; rfl
      · right; simp
    · rcases le_total a (as.foldr max 0) with hle | hle
      · right
        rw [max_eq_right hle]
        exact List.mem_cons_of_mem a hmem
      · right
        rw [max_eq_left hle]
        exact List.mem_cons_self a as

theorem nodeLevel_lt_of_edge {tasks : List TaskConfig} {g : DagEngine}
    (h : DagEngine.build tasks = .ok g) {u v : Nat} (he : (u, v) ∈ g.edges) :
    g.nodeLevel u < g.nodeLevel v := by
  obtain ⟨hl, _, hk⟩ := build_ok_elim h
  obtain ⟨out, hout⟩ := Option.isSome_iff_exists.mp hk
  have hnl : g.labels.length = (tasks.map (fun t => t.name)).length := by rw [hl]
  have hb2 : ∀ e ∈ g.edges, e.1 < (tasks.map (fun t => t.name)).length ∧
      e.2 < (tasks.map (fun t => t.name)).length := by
    intro e he2
    have := build_edges_bound h e he2
    rw [hnl] at this
    exact this
  have hun := (hb2 _ he).1
  have hvn := (hb2 _ he).2
  have hord := kahn_order hout he hun hvn
  have hlenout : out.length = (tasks.map (fun t => t.name)).length := by
    simpa using (kahn_perm hout).length_eq
  have hvpos : out.indexOf v < (tasks.map (fun t => t.name)).length := by
    have hmemv : v ∈ out := (kahn_perm hout).mem_iff.mpr (List.mem_range.mpr hvn)
    have := List.indexOf_lt_length.mpr hmemv
    omega
  obtain ⟨n2, hn2⟩ : ∃ n2, (tasks.map (fun t => t.name)).length = n2 + 1 :=
    ⟨(tasks.map (fun t => t.name)).length - 1, by omega⟩
  have hstab : levelAux g.edges n2 u = levelAux g.edges (tasks.map (fun t => t.name)).length u := by
    apply levelAux_stable hout hb2 (out.indexOf u) u rfl <;> omega
  have hmem : u ∈ incomingOf g.edges v := mem_incomingOf.mpr he
  have hge : levelAux g.edges n2 u + 1 ≤
      (incomingOf g.edges v).foldr (fun w m => max m (levelAux g.edges n2 w + 1)) 0 :=
    foldr_max_ge (g := fun w => levelAux g.edges n2 w + 1) hmem
  have hval : levelAux g.edges (tasks.map (fun t => t.name)).length v =
      (incomingOf g.edges v).foldr (fun w m => max m (levelAux g.edges n2 w + 1)) 0 := by
    rw [hn2]
    rfl
  simp only [DagEngine.nodeLevel, hnl]
  omega

theorem chainTo_le_n {n : Nat} {edges : List (Nat × Nat)} {out : List Nat}
    (hout : kahn n edges = some out)
    (hb : ∀ e ∈ edges, e.1 < n ∧ e.2 < n) {v k : Nat}
    (hc : ChainTo edges v k) : k ≤ n := by
  obtain ⟨l, hchain, hlen⟩ := hc
  have hlenout : out.length = n := by
    simpa using (kahn_perm hout).length_eq
  have himp : ∀ a b : Nat, (a, b) ∈ edges → out.indexOf a < out.indexOf b := by
    intro a b hab
    exact kahn_order hout hab (hb _ hab).1 (hb _ hab).2
  have hchain2 : List.Chain' (fun a b => out.indexOf a < out.indexOf b) (l ++ [v]) :=
    hchain.imp himp
  haveI : IsTrans Nat (fun a b => out.indexOf a < out.indexOf b) :=
    ⟨fun _ _ _ h1 h2 => lt_trans h1 h2⟩
  have hpw : List.Pairwise (fun a b => out.indexOf a < out.indexOf b) (l ++ [v]) :=
    List.chain'_iff_pairwise.mp hchain2
  have hmap : List.Pairwise (fun a b : Nat => a < b) ((l ++ [v]).map (fun x => out.indexOf x)) := by
    rw [List.pairwise_map]
    exact hpw
  have hnd : ((l ++ [v]).map (fun x => out.indexOf x)).Nodup :=
    hmap.imp Nat.ne_of_lt
  have hbound : ∀ y ∈ (l ++ [v]).map (fun x => out.indexOf x), y < n + 1 := by
    intro y hy
    rcases List.mem_map.mp hy with ⟨x, _, rfl⟩
    have := List.indexOf_le_length (a := x) (l := out)
    omega
  have hsub : ((l ++ [v]).map (fun x => out.indexOf x)).toFinset ⊆ Finset.range (n + 1) := by
    intro y hy
    rw [List.mem_toFinset] at hy
    rw [Finset.mem_range]
    exact hbound y hy
  have hcard := Finset.card_le_card hsub
  rw [List.toFinset_card_of_nodup hnd, Finset.card_range] at hcard
  rw [List.length_map, List.length_append, List.length_singleton, hlen] at hcard
  omega

theorem partition_filter_perm :
    ∀ (m : Nat) (l : List Nat) (f : Nat → Nat), (∀ x ∈ l, f x < m) →
      (((List.range m).map (fun L => l.filter (fun x => decide (f x = L)))).flatten).Perm l := by
  intro m
  induction m with
  | zero =>
    intro l f h
    have hnil : l = [] := by
      cases l with
      | nil => rfl
      | cons a as => exact absurd (h a (List.mem_cons_self a as)) (by omega)
    subst hnil
    simp
  | succ m ih =>
    intro l f h
    rw [List.range_succ, List.map_append, List.flatten_append]
    simp only [List.map_cons, List.map_nil, List.flatten_cons, List.flatten_nil,
      List.append_nil]
    have hmap : (List.range m).map (fun L => l.filter (fun x => decide (f x = L))) =
        (List.range m).map (fun L =>
          (l.filter (fun x => !(decide (f x = m)))).filter (fun x => decide (f x = L))) := by
      apply List.map_congr_left
      intro L hL
      have hLm := List.mem_range.mp hL
      rw [List.filter_filter]
      apply List.filter_congr
      intro x _
      by_cases hfx : f x = L
      · have hm : ¬ (f x = m) := by omega
        simp [hfx, hm]
        omega
      · simp [hfx]
    rw [hmap]
    have hih := ih (l.filter (fun x => !(decide (f x = m)))) f (by
      intro x hx
      rw [List.mem_filter] at hx
      have h1 := h x hx.1
      have hne : ¬ (f x = m) := by simpa using hx.2
      omega)
    have happ := hih.append (List.Perm.refl (l.filter (fun x => decide (f x = m))))
    refine happ.trans ?_
    exact (List.perm_append_comm).trans (List.filter_append_perm _ l)

theorem flatten_map_map {α β : Type} (f : α → β) (L : List (List α)) :
    (L.map (fun l => l.map f)).flatten = L.flatten.map f := by
  induction L with
  | nil => rfl
  | cons a as ih =>
    simp only [List.map_cons, List.flatten_cons, List.map_append, ih]

/-- C2 (amended): for every task list on which DagEngine.build
succeeds, parallel_levels partitions the task names, places every
node at the level index equal to the length of its longest dependency
chain (which starts at a source), sends every edge from a strictly
lower level to a strictly higher level, and for a nonempty task list
the number of levels is one plus the length of the longest dependency
path.  (The empty task list yields zero levels, not one.) -/
theorem c2_parallel_levels {tasks : List TaskConfig} {g : DagEngine}
    (h : DagEngine.build tasks = .ok g) :
    (g.parallel_levels.flatten).Perm (tasks.map (fun t => t.name)) ∧
    (∀ v, v < g.labels.length →
      g.labels.getD v "" ∈ g.parallel_levels.getD (g.nodeLevel v) []) ∧
    (∀ e ∈ g.edges, g.nodeLevel e.1 < g.nodeLevel e.2) ∧
    (∀ v, v < g.labels.length →
      ChainFromSourceTo g.edges v (g.nodeLevel v) ∧
      ∀ k, ChainTo g.edges v k → k ≤ g.nodeLevel v) ∧
    (tasks ≠ [] → ∃ L, g.parallel_levels.length = L + 1 ∧
      (∃ v, v < g.labels.length ∧ ChainFromSourceTo g.edges v L) ∧
      (∀ v k, v < g.labels.length → ChainTo g.edges v k → k ≤ L)) := by
  obtain ⟨hl, hbe, hk⟩ := build_ok_elim h
  obtain ⟨out, hout0⟩ := Option.isSome_iff_exists.mp hk
  have hN : g.labels.length = (tasks.map (fun t => t.name)).length := by rw [hl]
  have hout : kahn g.labels.length g.edges = some out := by rw [hN]; exact hout0
  have hb2 : ∀ e ∈ g.edges, e.1 < g.labels.length ∧ e.2 < g.labels.length :=
    build_edges_bound h
  have hmaxle : ∀ v, v < g.labels.length → g.nodeLevel v ≤ g.maxLevel := by
    intro v hv
    exact le_foldr_max (List.mem_map_of_mem _ (List.mem_range.mpr hv))
  have hchains : ∀ v, v < g.labels.length →
      ChainFromSourceTo g.edges v (g.nodeLevel v) ∧
      ∀ k, ChainTo g.edges v k → k ≤ g.nodeLevel v := by
    intro v hv
    constructor
    · exact levelAux_chain hout hb2 (out.indexOf v) v rfl hv
    · intro k hck
      exact chainTo_le_levelAux hck (chainTo_le_n hout hb2 hck)
  refine ⟨?_, ?_, ?_, hchains, ?_⟩
  · by_cases hn0 : g.labels.length = 0
    · have hlnil : g.labels = [] := List.length_eq_zero.mp hn0
      have htnil : tasks.map (fun t => t.name) = [] := by rw [← hl]; exact hlnil
      have hpl : g.parallel_levels = [] := by
        rw [DagEngine.parallel_levels, if_pos hn0]
      rw [hpl, htnil]
      exact List.Perm.refl _
    · have hperm := partition_filter_perm (g.maxLevel + 1)
        (List.range g.labels.length) (fun v => g.nodeLevel v)
        (by
          intro x hx
          have hx2 := hmaxle x (List.mem_range.mp hx)
          simpa using Nat.lt_succ_of_le hx2)
      rw [DagEngine.parallel_levels, if_neg hn0]
      have hmm : (List.range (g.maxLevel + 1)).map
            (fun L => ((List.range g.labels.length).filter
              (fun v => decide (g.nodeLevel v = L))).map (fun v => g.labels.getD v "")) =
          ((List.range (g.maxLevel + 1)).map
            (fun L => (List.range g.labels.length).filter
              (fun v => decide (g.nodeLevel v = L)))).map
            (fun l => l.map (fun v => g.labels.getD v "")) := by
        rw [List.map_map]
        rfl
      rw [hmm, flatten_map_map]
      have h2 := hperm.map (fun v => g.labels.getD v "")
      refine h2.trans ?_
      rw [map_getD_range]
      rw [hl]
  · intro v hv
    have hlev : g.nodeLevel v < g.maxLevel + 1 := Nat.lt_succ_of_le (hmaxle v hv)
    have hn0 : ¬ (g.labels.length = 0) := by omega
    have hlen : g.parallel_levels.length = g.maxLevel + 1 := by
      rw [DagEngine.parallel_levels, if_neg hn0, List.length_map, List.length_range]
    have hlt : g.nodeLevel v < g.parallel_levels.length := by omega
    rw [List.getD_eq_getElem _ _ hlt]
    have hpl : g.parallel_levels = (List.range (g.maxLevel + 1)).map
        (fun L => ((List.range g.labels.length).filter
          (fun v => decide (g.nodeLevel v = L))).map (fun v => g.labels.getD v "")) := by
      rw [DagEngine.parallel_levels, if_neg hn0]
    rw [List.getElem_of_eq hpl, List.getElem_map, List.getElem_range]
    apply List.mem_map_of_mem
    rw [List.mem_filter]
    exact ⟨List.mem_range.mpr hv, by simp⟩
  · intro e he
    exact nodeLevel_lt_of_edge h (u := e.1) (v := e.2) (by simpa using he)
  · intro htne
    have hn0 : ¬ (g.labels.length = 0) := by
      intro h0
      have hlnil : g.labels = [] := List.length_eq_zero.mp h0
      rw [hl] at hlnil
      exact htne (List.map_eq_nil_iff.mp hlnil)
    refine ⟨g.maxLevel, ?_, ?_, ?_⟩
    · rw [DagEngine.parallel_levels, if_neg hn0, List.length_map, List.length_range]
    · have hpos : 0 < g.labels.length := by omega
      rcases foldr_max_mem ((List.range g.labels.length).map (fun v => g.nodeLevel v)) with
        h0 | hmem
      · refine ⟨0, hpos, ?_⟩
        have hle0 := hmaxle 0 hpos
        have hz : g.nodeLevel 0 = 0 := by
          have hm0 : g.maxLevel = 0 := h0
          omega
        have hch := (hchains 0 hpos).1
        rw [hz] at hch
        have hm0 : g.maxLevel = 0 := h0
        rw [hm0]
        exact hch
      · rcases List.mem_map.mp hmem with ⟨v, hvr, hveq⟩
        have hv := List.mem_range.mp hvr
        refine ⟨v, hv, ?_⟩
        have hch := (hchains v hv).1
        have hveq2 : g.nodeLevel v = g.maxLevel := hveq
        rw [hveq2] at hch
        exact hch
    · intro v k hv hck
      have hb1 := (hchains v hv).2 k hck
      have hb3 := hmaxle v hv
      omega

/-- Counterexample for C2 as stated: the empty task list builds
successfully and its longest dependency path has length zero (chains
of length zero exist and every chain has length zero), yet
parallel_levels returns zero levels, not one. -/
theorem c2_counterexample :
    DagEngine.build ([] : List TaskConfig) = .ok ⟨[], []⟩ ∧
    DagEngine.parallel_levels ⟨[], []⟩ = [] ∧
    (∀ v : Nat, ChainFromSourceTo ([] : List (Nat × Nat)) v 0) ∧
    (∀ v k : Nat, ChainTo ([] : List (Nat × Nat)) v k → k = 0) ∧
    (DagEngine.parallel_levels ⟨[], []⟩).length ≠ 0 + 1 := by
  refine ⟨by decide, rfl, ?_, ?_, by decide⟩
  · intro v
    refine ⟨[], by simp, rfl, ?_⟩
    intro w
    simp
  · intro v k hc
    obtain ⟨l, hchain, hlen⟩ := hc
    rcases List.eq_nil_or_concat l with rfl | ⟨l2, u, rfl⟩
    · simp at hlen
      omega
    · rw [List.concat_eq_append, List.chain'_append] at hchain
      have := hchain.2.2 u (by simp) v (by simp)
      simp at this

/-- Witness for C2 at the concrete workflow with tasks a and b where
b depends on a. -/
theorem c2_witness :
    ((DagEngine.parallel_levels ⟨["a", "b"], [(0, 1)]⟩).flatten).Perm
      ([(⟨"a", [], false, none, none⟩ : TaskConfig),
        ⟨"b", ["a"], false, none, none⟩].map (fun t => t.name)) ∧
    (∀ v, v < (DagEngine.mk ["a", "b"] [(0, 1)]).labels.length →
      (DagEngine.mk ["a", "b"] [(0, 1)]).labels.getD v "" ∈
        (DagEngine.parallel_levels ⟨["a", "b"], [(0, 1)]⟩).getD
          ((DagEngine.mk ["a", "b"] [(0, 1)]).nodeLevel v) []) ∧
    (∀ e ∈ (DagEngine.mk ["a", "b"] [(0, 1)]).edges,
      (DagEngine.mk ["a", "b"] [(0, 1)]).nodeLevel e.1 <
        (DagEngine.mk ["a", "b"] [(0, 1)]).nodeLevel e.2) ∧
    (∀ v, v < (DagEngine.mk ["a", "b"] [(0, 1)]).labels.length →
      ChainFromSourceTo (DagEngine.mk ["a", "b"] [(0, 1)]).edges v
        ((DagEngine.mk ["a", "b"] [(0, 1)]).nodeLevel v) ∧
      ∀ k, ChainTo (DagEngine.mk ["a", "b"] [(0, 1)]).edges v k →
        k ≤ (DagEngine.mk ["a", "b"] [(0, 1)]).nodeLevel v) ∧
    ([(⟨"a", [], false, none, none⟩ : TaskConfig),
        ⟨"b", ["a"], false, none, none⟩] ≠ [] →
      ∃ L, (DagEngine.parallel_levels ⟨["a", "b"], [(0, 1)]⟩).length = L + 1 ∧
        (∃ v, v < (DagEngine.mk ["a", "b"] [(0, 1)]).labels.length ∧
          ChainFromSourceTo (DagEngine.mk ["a", "b"] [(0, 1)]).edges v L) ∧
        (∀ v k, v < (DagEngine.mk ["a", "b"] [(0, 1)]).labels.length →
          ChainTo (DagEngine.mk ["a", "b"] [(0, 1)]).edges v k → k ≤ L)) :=
  c2_parallel_levels (by decide)

/-! ## Lemmas about the retry loop -/

theorem retryLoop_attempt_index {name : String} {outcome : Nat → AttemptOutcome}
    {max_retries : Nat} :
    ∀ {fuel attempt i : Nat} {st : RetryStep},
      (retryLoop name outcome max_retries attempt fuel).1[i]? = some st →
      st.row.attempt = attempt + i := by
  intro fuel
  induction fuel with
  | zero =>
    intro attempt i st hst
    simp [retryLoop] at hst
  | succ f ih =>
    intro attempt i st hst
    simp only [retryLoop] at hst
    cases houtc : outcome attempt with
    | finished success ec so se =>
      rw [houtc] at hst
      cases success with
      | true =>
        simp only [reduceIte] at hst
        cases i with
        | zero =>
          simp only [List.getElem?_cons_zero, Option.some.injEq] at hst
          rw [← hst]
          simp [start_task, update_task_status]
        | succ j => simp at hst
      | false =>
        by_cases hle : attempt ≤ max_retries
        · simp only [Bool.false_eq_true, reduceIte, reduceCtorEq, if_false, if_pos hle] at hst
          cases i with
          | zero =>
            simp only [List.getElem?_cons_zero, Option.some.injEq] at hst
            rw [← hst]
            simp [set_task_retry, update_task_status, start_task]
          | succ j =>
            simp only [List.getElem?_cons_succ] at hst
            rw [ih hst]
            omega
        · simp only [Bool.false_eq_true, reduceIte, reduceCtorEq, if_false, if_neg hle] at hst
          cases i with
          | zero =>
            simp only [List.getElem?_cons_zero, Option.some.injEq] at hst
            rw [← hst]
            simp [start_task, update_task_status]
          | succ j => simp at hst
    | errored isT =>
      rw [houtc] at hst
      by_cases hle : attempt ≤ max_retries
      · simp only [if_pos hle] at hst
        cases i with
        | zero =>
          simp only [List.getElem?_cons_zero, Option.some.injEq] at hst
          rw [← hst]
          simp [update_task_status, start_task]
        | succ j =>
          simp only [List.getElem?_cons_succ] at hst
          rw [ih hst]
          omega
      · simp only [if_neg hle] at hst
        cases i with
        | zero =>
          simp only [List.getElem?_cons_zero, Option.some.injEq] at hst
          rw [← hst]
          simp [update_task_status, start_task]
        | succ j => simp at hst

theorem retryLoop_sleep {name : String} {outcome : Nat → AttemptOutcome}
    {max_retries : Nat} :
    ∀ {fuel attempt : Nat} {st : RetryStep},
      st ∈ (retryLoop name outcome max_retries attempt fuel).1 →
      ∀ d, st.sleep = some d →
        d = min (1 * (2 ^ (st.row.attempt - 1) % 2 ^ 64)) 60 := by
  intro fuel
  induction fuel with
  | zero =>
    intro attempt st hst d hd
    simp [retryLoop] at hst
  | succ f ih =>
    intro attempt st hst d hd
    simp only [retryLoop] at hst
    cases houtc : outcome attempt with
    | finished success ec so se =>
      rw [houtc] at hst
      cases success with
      | true =>
        simp only [reduceIte] at hst
        simp only [List.mem_singleton] at hst
        subst hst
        simp at hd
      | false =>
        by_cases hle : attempt ≤ max_retries
        · simp only [Bool.false_eq_true, reduceIte, reduceCtorEq, if_false,
            if_pos hle] at hst
          rcases List.mem_cons.mp hst with rfl | hmem
          · simp only at hd
            injection hd with hd2
            subst hd2
            simp [set_task_retry, update_task_status, start_task, calculate_backoff_delay]
          · exact ih hmem d hd
        · simp only [Bool.false_eq_true, reduceIte, reduceCtorEq, if_false,
            if_neg hle] at hst
          simp only [List.mem_singleton] at hst
          subst hst
          simp at hd
    | errored isT =>
      rw [houtc] at hst
      by_cases hle : attempt ≤ max_retries
      · simp only [if_pos hle] at hst
        rcases List.mem_cons.mp hst with rfl | hmem
        · simp only at hd
          injection hd with hd2
          subst hd2
          simp [update_task_status, start_task, calculate_backoff_delay]
        · exact ih hmem d hd
      · simp only [if_neg hle] at hst
        simp only [List.mem_singleton] at hst
        subst hst
        simp at hd

theorem retryLoop_rows {name : String} {outcome : Nat → AttemptOutcome}
    {max_retries : Nat} :
    ∀ {fuel attempt : Nat}, 1 ≤ attempt →
      ∀ {st : RetryStep}, st ∈ (retryLoop name outcome max_retries attempt fuel).1 →
      (st.row.status = .Retrying → st.row.attempt = 1 + st.row.retry_count) ∧
      (st.row.status ≠ .Retrying → st.row.retry_count = 0) := by
  intro fuel
  induction fuel with
  | zero =>
    intro attempt _ st hst
    simp [retryLoop] at hst
  | succ f ih =>
    intro attempt h1 st hst
    simp only [retryLoop] at hst
    cases houtc : outcome attempt with
    | finished success ec so se =>
      rw [houtc] at hst
      cases success with
      | true =>
        simp only [reduceIte] at hst
        simp only [List.mem_singleton] at hst
        subst hst
        constructor
        · intro hs
          simp [update_task_status, start_task] at hs
        · intro _
          simp [update_task_status, start_task]
      | false =>
        by_cases hle : attempt ≤ max_retries
        · simp only [Bool.false_eq_true, reduceIte, reduceCtorEq, if_false,
            if_pos hle] at hst
          rcases List.mem_cons.mp hst with rfl | hmem
          · constructor
            · intro _
              simp only [set_task_retry, update_task_status, start_task]
              omega
            · intro hne
              exfalso
              apply hne
              simp [set_task_retry]
          · exact ih (by omega) hmem
        · simp only [Bool.false_eq_true, reduceIte, reduceCtorEq, if_false,
            if_neg hle] at hst
          simp only [List.mem_singleton] at hst
          subst hst
          constructor
          · intro hs
            simp [update_task_status, start_task] at hs
          · intro _
            simp [update_task_status, start_task]
    | errored isT =>
      rw [houtc] at hst
      by_cases hle : attempt ≤ max_retries
      · simp only [if_pos hle] at hst
        rcases List.mem_cons.mp hst with rfl | hmem
        · constructor
          · intro hs
            cases isT <;> simp [update_task_status, start_task] at hs
          · intro _
            simp [update_task_status, start_task]
        · exact ih (by omega) hmem
      · simp only [if_neg hle] at hst
        simp only [List.mem_singleton] at hst
        subst hst
        constructor
        · intro hs
          cases isT <;> simp [update_task_status, start_task] at hs
        · intro _
          simp [update_task_status, start_task]

theorem mem_of_getElem_opt {α : Type} {l : List α} {i : Nat} {a : α}
    (h : l[i]? = some a) : a ∈ l := by
  rcases List.getElem?_eq_some.mp h with ⟨hlt, heq⟩
  rw [← heq]
  exact List.getElem_mem hlt

/-- C5 (amended): in every run of execute_task_with_retry the attempt
rows are numbered consecutively from 1, and the backoff sleep the
scheduler performs after a failed attempt k (before attempt k + 1) is
min(base * (2^(k-1) mod 2^64), cap) seconds with base 1 and cap 60,
the wrapping u64 power of calculate_backoff_delay applied to the
just-failed attempt number, not min(base * 2^k, cap): for k up to 64
this is min(2^(k-1), 60), and from k = 65 on the u64 power wraps to 0
and the scheduler sleeps 0 seconds, not the 60 second cap. -/
theorem c5_backoff_delay (task : TaskConfig) (outcome : Nat → AttemptOutcome) :
    (∀ i : Nat, ∀ st : RetryStep,
      (execute_task_with_retry task outcome).1[i]? = some st →
      st.row.attempt = i + 1) ∧
    (∀ st ∈ (execute_task_with_retry task outcome).1, ∀ d, st.sleep = some d →
      d = min (1 * (2 ^ (st.row.attempt - 1) % 2 ^ 64)) 60 ∧
      (st.row.attempt ≤ 64 → d = min (2 ^ (st.row.attempt - 1)) 60) ∧
      (65 ≤ st.row.attempt → d = 0)) := by
  constructor
  · intro i st hst
    have h := @retryLoop_attempt_index task.name outcome (task.retry.getD 3)
      (task.retry.getD 3 + 1) 1 i st hst
    omega
  · intro st hst d hd
    have hform := retryLoop_sleep hst d hd
    refine ⟨hform, ?_, ?_⟩
    · intro hle
      have hlt : 2 ^ (st.row.attempt - 1) < 2 ^ 64 :=
        Nat.pow_lt_pow_right (by norm_num) (by omega)
      rw [hform, Nat.mod_eq_of_lt hlt, Nat.one_mul]
    · intro hge
      have hdvd : 2 ^ 64 ∣ 2 ^ (st.row.attempt - 1) :=
        pow_dvd_pow 2 (by omega)
      have hmod : 2 ^ (st.row.attempt - 1) % 2 ^ 64 = 0 := by
        obtain ⟨c, hc⟩ := hdvd
        rw [hc]
        exact Nat.mul_mod_right _ _
      rw [hform, hmod]
      norm_num

/-- Counterexample for C5 as stated: with retry = 1 and a command
failing every attempt, the scheduler sleeps 1 second between failed
attempt 1 and attempt 2, but min(base * 2^1, cap) is 2 seconds; and
with retry = 65 the sleep after failed attempt 65 is 0 seconds,
because the u64 power wraps, where both the claimed formula
min(2^65, 60) and the shifted formula min(2^64, 60) give 60. -/
theorem c5_counterexample :
    (((execute_task_with_retry ⟨"t", [], false, some 1, none⟩
        (fun _ => .finished false (some 1) none none)).1.map
      (fun st => (st.row.attempt, st.sleep))) = [(1, some 1), (2, none)] ∧
    (1 : Nat) ≠ min (1 * 2 ^ 1) 60) ∧
    ((((execute_task_with_retry ⟨"t", [], false, some 65, none⟩
        (fun _ => .finished false (some 1) none none)).1)[64]?).map
      (fun st => (st.row.attempt, st.sleep)) = some (65, some 0) ∧
    (0 : Nat) ≠ min (1 * 2 ^ 65) 60 ∧
    (0 : Nat) ≠ min (1 * 2 ^ (65 - 1)) 60) :=
  ⟨⟨by decide, by decide⟩, by decide, by decide, by decide⟩

/-- Witness for C5 at a concrete failing task with one retry. -/
theorem c5_witness :
    ∃ st : RetryStep,
      ((execute_task_with_retry ⟨"t", [], false, some 1, none⟩
        (fun _ => .finished false (some 1) none none)).1)[0]? = some st ∧
      st.row.attempt = 0 + 1 ∧
      ∀ d, st.sleep = some d →
        d = min (1 * (2 ^ (st.row.attempt - 1) % 2 ^ 64)) 60 ∧
        (st.row.attempt ≤ 64 → d = min (2 ^ (st.row.attempt - 1)) 60) ∧
        (65 ≤ st.row.attempt → d = 0) := by
  have hs : (((execute_task_with_retry ⟨"t", [], false, some 1, none⟩
      (fun _ => .finished false (some 1) none none)).1)[0]?).isSome := by decide
  obtain ⟨st, hst⟩ := Option.isSome_iff_exists.mp hs
  refine ⟨st, hst, ?_, ?_⟩
  · exact (c5_backoff_delay ⟨"t", [], false, some 1, none⟩
      (fun _ => .finished false (some 1) none none)).1 0 st hst
  · intro d hd
    exact (c5_backoff_delay ⟨"t", [], false, some 1, none⟩
      (fun _ => .finished false (some 1) none none)).2 st
      (mem_of_getElem_opt hst) d hd

/-- C6 (amended): in every run of execute_task_with_retry, a row
whose final status is retrying (written by set_task_retry) satisfies
attempt = 1 + retry_count; every other row (successful rows, rows of
the final attempt, and rows of errored attempts) keeps the schema
default retry_count = 0, so attempt = 1 + retry_count holds for those
rows only when attempt = 1. -/
theorem c6_attempt_retry_count (task : TaskConfig) (outcome : Nat → AttemptOutcome) :
    ∀ st ∈ (execute_task_with_retry task outcome).1,
      (st.row.status = .Retrying → st.row.attempt = 1 + st.row.retry_count) ∧
      (st.row.status ≠ .Retrying → st.row.retry_count = 0) :=
  fun _ hst => retryLoop_rows (by omega) hst

/-- Counterexample for C6 as stated: with retry = 1 and a command
failing both attempts, the final row has attempt 2, status failed and
retry_count 0, violating attempt = 1 + retry_count. -/
theorem c6_counterexample :
    ((execute_task_with_retry ⟨"t", [], false, some 1, none⟩
        (fun _ => .finished false (some 1) none none)).1.map
      (fun st => (st.row.attempt, st.row.retry_count, st.row.status))) =
      [(1, 0, .Retrying), (2, 0, .Failed)] ∧
    ¬ ((2 : Nat) = 1 + 0) := ⟨by decide, by decide⟩

/-- Witness for C6 at a concrete task succeeding on its first
attempt. -/
theorem c6_witness :
    ∃ st : RetryStep,
      st ∈ (execute_task_with_retry ⟨"t", [], false, some 0, none⟩
        (fun _ => .finished true none none none)).1 ∧
      st.row.retry_count = 0 := by
  have hs : (((execute_task_with_retry ⟨"t", [], false, some 0, none⟩
      (fun _ => .finished true none none none)).1)[0]?).isSome := by decide
  obtain ⟨st, hst⟩ := Option.isSome_iff_exists.mp hs
  have hmem := mem_of_getElem_opt hst
  refine ⟨st, hmem, ?_⟩
  apply (c6_attempt_retry_count ⟨"t", [], false, some 0, none⟩
    (fun _ => .finished true none none none) st hmem).2
  have heq : (((execute_task_with_retry ⟨"t", [], false, some 0, none⟩
      (fun _ => .finished true none none none)).1)[0]?) =
      some ⟨⟨"t", .Success, 1, 0, some 0, none, none, none, none⟩, none⟩ := by decide
  rw [hst] at heq
  injection heq with heq2
  rw [heq2]
  decide

/-- C10: update_task_status writes NULL into completed_at for the
non-terminal statuses pending, running and retrying (clearing any
previously stored completion time) while still overwriting
exit_code, stdout and stderr with the supplied values; the terminal
statuses success, failed and timeout set completed_at to the current
time; all other columns of the row are left unchanged. -/
theorem c10_update_task_status (row : TaskRow) (status : TaskStatus)
    (exit_code : Option Int) (stdout stderr : Option String) (now : Nat) :
    ((status = .Pending ∨ status = .Running ∨ status = .Retrying) →
      (update_task_status row status exit_code stdout stderr now).completed_at = none) ∧
    ((status = .Success ∨ status = .Failed ∨ status = .Timeout) →
      (update_task_status row status exit_code stdout stderr now).completed_at =
        some now) ∧
    (update_task_status row status exit_code stdout stderr now).status = status ∧
    (update_task_status row status exit_code stdout stderr now).exit_code = exit_code ∧
    (update_task_status row status exit_code stdout stderr now).stdout = stdout ∧
    (update_task_status row status exit_code stdout stderr now).stderr = stderr ∧
    (update_task_status row status exit_code stdout stderr now).attempt = row.attempt ∧
    (update_task_status row status exit_code stdout stderr now).retry_count =
      row.retry_count ∧
    (update_task_status row status exit_code stdout stderr now).next_retry_at =
      row.next_retry_at ∧
    (update_task_status row status exit_code stdout stderr now).task_name =
      row.task_name := by
  cases status <;> simp [update_task_status, TaskStatus.isTerminal]

/-- Witness for C10: a retrying update clears a previously stored
completion time, a success update stamps it. -/
theorem c10_witness :
    (update_task_status ⟨"t", .Running, 2, 0, some 5, some 0, none, none, none⟩
      .Retrying (some 1) (some "o") (some "e") 9).completed_at = none ∧
    (update_task_status ⟨"t", .Running, 2, 0, some 5, some 0, none, none, none⟩
      .Success (some 0) none none 9).completed_at = some 9 :=
  ⟨(c10_update_task_status _ _ _ _ _ _).1 (Or.inr (Or.inr rfl)),
    (c10_update_task_status _ _ _ _ _ _).2.1 (Or.inl rfl)⟩

/-! ## Lemmas about UTF-8 lossy decoding (executors/mod.rs) -/

/-- Branch equation: an ASCII byte is copied. -/
theorem utf8Lossy_ascii (b : Nat) (rest : List Nat) (h : b ≤ 0x7F) :
    utf8Lossy (b :: rest) = b :: utf8Lossy rest := by
  rw [utf8Lossy.eq_def]
  simp only [if_pos h]

/-- Branch equation: a two-byte lead at the end of input. -/
theorem utf8Lossy_two_nil (b : Nat) (h1 : ¬ b ≤ 0x7F) (h2 : 0xC2 ≤ b ∧ b ≤ 0xDF) :
    utf8Lossy [b] = repl := by
  rw [utf8Lossy.eq_def]
  simp only [if_neg h1, if_pos h2]

/-- Branch equation: a complete two-byte sequence is copied. -/
theorem utf8Lossy_two_ok (b c : Nat) (rest2 : List Nat) (h1 : ¬ b ≤ 0x7F)
    (h2 : 0xC2 ≤ b ∧ b ≤ 0xDF) (hc : isCont c = true) :
    utf8Lossy (b :: c :: rest2) = b :: c :: utf8Lossy rest2 := by
  rw [utf8Lossy.eq_def]
  simp only [if_neg h1, if_pos h2, if_pos hc]

/-- Branch equation: a two-byte lead with a bad second byte. -/
theorem utf8Lossy_two_bad (b c : Nat) (rest2 : List Nat) (h1 : ¬ b ≤ 0x7F)
    (h2 : 0xC2 ≤ b ∧ b ≤ 0xDF) (hc : ¬ isCont c = true) :
    utf8Lossy (b :: c :: rest2) = repl ++ utf8Lossy (c :: rest2) := by
  rw [utf8Lossy.eq_def]
  simp only [if_neg h1, if_pos h2, if_neg hc]

/-- Branch equation: a three-byte lead at the end of input. -/
theorem utf8Lossy_three_nil (b : Nat) (h1 : ¬ b ≤ 0x7F) (h2 : ¬ (0xC2 ≤ b ∧ b ≤ 0xDF))
    (h3 : 0xE0 ≤ b ∧ b ≤ 0xEF) :
    utf8Lossy [b] = repl := by
  rw [utf8Lossy.eq_def]
  simp only [if_neg h1, if_neg h2, if_pos h3]

/-- Branch equation: a three-byte lead with a good second byte at the end. -/
theorem utf8Lossy_three_one (b c : Nat) (h1 : ¬ b ≤ 0x7F) (h2 : ¬ (0xC2 ≤ b ∧ b ≤ 0xDF))
    (h3 : 0xE0 ≤ b ∧ b ≤ 0xEF) (hv : validCont3 b c = true) :
    utf8Lossy [b, c] = repl := by
  rw [utf8Lossy.eq_def]
  simp only [if_neg h1, if_neg h2, if_pos h3, if_pos hv]

/-- Branch equation: a complete three-byte sequence is copied. -/
theorem utf8Lossy_three_ok (b c d : Nat) (rest3 : List Nat) (h1 : ¬ b ≤ 0x7F)
    (h2 : ¬ (0xC2 ≤ b ∧ b ≤ 0xDF)) (h3 : 0xE0 ≤ b ∧ b ≤ 0xEF)
    (hv : validCont3 b c = true) (hd : isCont d = true) :
    utf8Lossy (b :: c :: d :: rest3) = b :: c :: d :: utf8Lossy rest3 := by
  rw [utf8Lossy.eq_def]
  simp only [if_neg h1, if_neg h2, if_pos h3, if_pos hv, if_pos hd]

/-- Branch equation: a three-byte lead with a bad third byte. -/
theorem utf8Lossy_three_bad3 (b c d : Nat) (rest3 : List Nat) (h1 : ¬ b ≤ 0x7F)
    (h2 : ¬ (0xC2 ≤ b ∧ b ≤ 0xDF)) (h3 : 0xE0 ≤ b ∧ b ≤ 0xEF)
    (hv : validCont3 b c = true) (hd : ¬ isCont d = true) :
    utf8Lossy (b :: c :: d :: rest3) = repl ++ utf8Lossy (d :: rest3) := by
  rw [utf8Lossy.eq_def]
  simp only [if_neg h1, if_neg h2, if_pos h3, if_pos hv, if_neg hd]

/-- Branch equation: a three-byte lead with a bad second byte. -/
theorem utf8Lossy_three_bad2 (b c : Nat) (rest2 : List Nat) (h1 : ¬ b ≤ 0x7F)
    (h2 : ¬ (0xC2 ≤ b ∧ b ≤ 0xDF)) (h3 : 0xE0 ≤ b ∧ b ≤ 0xEF)
    (hv : ¬ validCont3 b c = true) :
    utf8Lossy (b :: c :: rest2) = repl ++ utf8Lossy (c :: rest2) := by
  rw [utf8Lossy.eq_def]
  simp only [if_neg h1, if_neg h2, if_pos h3, if_neg hv]

/-- Branch equation: a four-byte lead at the end of input. -/
theorem utf8Lossy_four_nil (b : Nat) (h1 : ¬ b ≤ 0x7F) (h2 : ¬ (0xC2 ≤ b ∧ b ≤ 0xDF))
    (h3 : ¬ (0xE0 ≤ b ∧ b ≤ 0xEF)) (h4 : 0xF0 ≤ b ∧ b ≤ 0xF4) :
    utf8Lossy [b] = repl := by
  rw [utf8Lossy.eq_def]
  simp only [if_neg h1, if_neg h2, if_neg h3, if_pos h4]

/-- Branch equation: a four-byte lead with one good continuation at the end. -/
theorem utf8Lossy_four_one (b c : Nat) (h1 : ¬ b ≤ 0x7F) (h2 : ¬ (0xC2 ≤ b ∧ b ≤ 0xDF))
    (h3 : ¬ (0xE0 ≤ b ∧ b ≤ 0xEF)) (h4 : 0xF0 ≤ b ∧ b ≤ 0xF4)
    (hv : validCont4 b c = true) :
    utf8Lossy [b, c] = repl := by
  rw [utf8Lossy.eq_def]
  simp only [if_neg h1, if_neg h2, if_neg h3, if_pos h4, if_pos hv]

/-- Branch equation: a four-byte lead with two good continuations at the end. -/
theorem utf8Lossy_four_two (b c d : Nat) (h1 : ¬ b ≤ 0x7F) (h2 : ¬ (0xC2 ≤ b ∧ b ≤ 0xDF))
    (h3 : ¬ (0xE0 ≤ b ∧ b ≤ 0xEF)) (h4 : 0xF0 ≤ b ∧ b ≤ 0xF4)
    (hv : validCont4 b c = true) (hd : isCont d = true) :
    utf8Lossy [b, c, d] = repl := by
  rw [utf8Lossy.eq_def]
  simp only [if_neg h1, if_neg h2, if_neg h3, if_pos h4, if_pos hv, if_pos hd]

/-- Branch equation: a complete four-byte sequence is copied. -/
theorem utf8Lossy_four_ok (b c d e : Nat) (rest4 : List Nat) (h1 : ¬ b ≤ 0x7F)
    (h2 : ¬ (0xC2 ≤ b ∧ b ≤ 0xDF)) (h3 : ¬ (0xE0 ≤ b ∧ b ≤ 0xEF))
    (h4 : 0xF0 ≤ b ∧ b ≤ 0xF4) (hv : validCont4 b c = true) (hd : isCont d = true)
    (he : isCont e = true) :
    utf8Lossy (b :: c :: d :: e :: rest4) = b :: c :: d :: e :: utf8Lossy rest4 := by
  rw [utf8Lossy.eq_def]
  simp only [if_neg h1, if_neg h2, if_neg h3, if_pos h4, if_pos hv, if_pos hd, if_pos he]

/-- Branch equation: a four-byte lead with a bad fourth byte. -/
theorem utf8Lossy_four_bad4 (b c d e : Nat) (rest4 : List Nat) (h1 : ¬ b ≤ 0x7F)
    (h2 : ¬ (0xC2 ≤ b ∧ b ≤ 0xDF)) (h3 : ¬ (0xE0 ≤ b ∧ b ≤ 0xEF))
    (h4 : 0xF0 ≤ b ∧ b ≤ 0xF4) (hv : validCont4 b c = true) (hd : isCont d = true)
    (he : ¬ isCont e = true) :
    utf8Lossy (b :: c :: d :: e :: rest4) = repl ++ utf8Lossy (e :: rest4) := by
  rw [utf8Lossy.eq_def]
  simp only [if_neg h1, if_neg h2, if_neg h3, if_pos h4, if_pos hv, if_pos hd, if_neg he]

/-- Branch equation: a four-byte lead with a bad third byte. -/
theorem utf8Lossy_four_bad3 (b c d : Nat) (rest3 : List Nat) (h1 : ¬ b ≤ 0x7F)
    (h2 : ¬ (0xC2 ≤ b ∧ b ≤ 0xDF)) (h3 : ¬ (0xE0 ≤ b ∧ b ≤ 0xEF))
    (h4 : 0xF0 ≤ b ∧ b ≤ 0xF4) (hv : validCont4 b c = true) (hd : ¬ isCont d = true) :
    utf8Lossy (b :: c :: d :: rest3) = repl ++ utf8Lossy (d :: rest3) := by
  rw [utf8Lossy.eq_def]
  simp only [if_neg h1, if_neg h2, if_neg h3, if_pos h4, if_pos hv, if_neg hd]

/-- Branch equation: a four-byte lead with a bad second byte. -/
theorem utf8Lossy_four_bad2 (b c : Nat) (rest2 : List Nat) (h1 : ¬ b ≤ 0x7F)
    (h2 : ¬ (0xC2 ≤ b ∧ b ≤ 0xDF)) (h3 : ¬ (0xE0 ≤ b ∧ b ≤ 0xEF))
    (h4 : 0xF0 ≤ b ∧ b ≤ 0xF4) (hv : ¬ validCont4 b c = true) :
    utf8Lossy (b :: c :: rest2) = repl ++ utf8Lossy (c :: rest2) := by
  rw [utf8Lossy.eq_def]
  simp only [if_neg h1, if_neg h2, if_neg h3, if_pos h4, if_neg hv]

/-- Branch equation: any other leading byte is replaced. -/
theorem utf8Lossy_other (b : Nat) (rest : List Nat) (h1 : ¬ b ≤ 0x7F)
    (h2 : ¬ (0xC2 ≤ b ∧ b ≤ 0xDF)) (h3 : ¬ (0xE0 ≤ b ∧ b ≤ 0xEF))
    (h4 : ¬ (0xF0 ≤ b ∧ b ≤ 0xF4)) :
    utf8Lossy (b :: rest) = repl ++ utf8Lossy rest := by
  rw [utf8Lossy.eq_def]
  simp only [if_neg h1, if_neg h2, if_neg h3, if_neg h4]

/-- Branch equation for the validator: an ASCII byte. -/
theorem validUtf8_ascii (b : Nat) (rest : List Nat) (h : b ≤ 0x7F) :
    validUtf8 (b :: rest) = validUtf8 rest := by
  rw [validUtf8.eq_def]
  simp only [if_pos h]

/-- Branch equation for the validator: a lone non-ASCII byte is invalid. -/
theorem validUtf8_single (b : Nat) (h1 : ¬ b ≤ 0x7F) :
    validUtf8 [b] = false := by
  rw [validUtf8.eq_def]
  simp only [if_neg h1]
  split_ifs <;> rfl

/-- Branch equation for the validator: a two-byte lead. -/
theorem validUtf8_two (b c : Nat) (rest2 : List Nat) (h1 : ¬ b ≤ 0x7F)
    (h2 : 0xC2 ≤ b ∧ b ≤ 0xDF) :
    validUtf8 (b :: c :: rest2) = (isCont c && validUtf8 rest2) := by
  rw [validUtf8.eq_def]
  simp only [if_neg h1, if_pos h2]

/-- Branch equation for the validator: a three-byte lead with two bytes left. -/
theorem validUtf8_three (b c d : Nat) (rest3 : List Nat) (h1 : ¬ b ≤ 0x7F)
    (h2 : ¬ (0xC2 ≤ b ∧ b ≤ 0xDF)) (h3 : 0xE0 ≤ b ∧ b ≤ 0xEF) :
    validUtf8 (b :: c :: d :: rest3) = (validCont3 b c && (isCont d && validUtf8 rest3)) := by
  rw [validUtf8.eq_def]
  simp only [if_neg h1, if_neg h2, if_pos h3]

/-- Branch equation for the validator: a three-byte lead with one byte left. -/
theorem validUtf8_three_pair (b c : Nat) (h1 : ¬ b ≤ 0x7F)
    (h2 : ¬ (0xC2 ≤ b ∧ b ≤ 0xDF)) (h3 : 0xE0 ≤ b ∧ b ≤ 0xEF) :
    validUtf8 [b, c] = false := by
  rw [validUtf8.eq_def]
  simp only [if_neg h1, if_neg h2, if_pos h3, Bool.and_false]

/-- Branch equation for the validator: a four-byte lead with three bytes left. -/
theorem validUtf8_four (b c d e : Nat) (rest4 : List Nat) (h1 : ¬ b ≤ 0x7F)
    (h2 : ¬ (0xC2 ≤ b ∧ b ≤ 0xDF)) (h3 : ¬ (0xE0 ≤ b ∧ b ≤ 0xEF))
    (h4 : 0xF0 ≤ b ∧ b ≤ 0xF4) :
    validUtf8 (b :: c :: d :: e :: rest4) =
      (validCont4 b c && (isCont d && (isCont e && validUtf8 rest4))) := by
  rw [validUtf8.eq_def]
  simp only [if_neg h1, if_neg h2, if_neg h3, if_pos h4]

/-- Branch equation for the validator: a four-byte lead with one byte left. -/
theorem validUtf8_four_pair (b c : Nat) (h1 : ¬ b ≤ 0x7F)
    (h2 : ¬ (0xC2 ≤ b ∧ b ≤ 0xDF)) (h3 : ¬ (0xE0 ≤ b ∧ b ≤ 0xEF))
    (h4 : 0xF0 ≤ b ∧ b ≤ 0xF4) :
    validUtf8 [b, c] = false := by
  rw [validUtf8.eq_def]
  simp only [if_neg h1, if_neg h2, if_neg h3, if_pos h4, Bool.and_false]

/-- Branch equation for the validator: a four-byte lead with two bytes left. -/
theorem validUtf8_four_triple (b c d : Nat) (h1 : ¬ b ≤ 0x7F)
    (h2 : ¬ (0xC2 ≤ b ∧ b ≤ 0xDF)) (h3 : ¬ (0xE0 ≤ b ∧ b ≤ 0xEF))
    (h4 : 0xF0 ≤ b ∧ b ≤ 0xF4) :
    validUtf8 [b, c, d] = false := by
  rw [validUtf8.eq_def]
  simp only [if_neg h1, if_neg h2, if_neg h3, if_pos h4, Bool.and_false]

/-- Branch equation for the validator: any other leading byte is invalid. -/
theorem validUtf8_other (b : Nat) (rest : List Nat) (h1 : ¬ b ≤ 0x7F)
    (h2 : ¬ (0xC2 ≤ b ∧ b ≤ 0xDF)) (h3 : ¬ (0xE0 ≤ b ∧ b ≤ 0xEF))
    (h4 : ¬ (0xF0 ≤ b ∧ b ≤ 0xF4)) :
    validUtf8 (b :: rest) = false := by
  rw [validUtf8.eq_def]
  simp only [if_neg h1, if_neg h2, if_neg h3, if_neg h4]

/-- Branch equation: empty input. -/
theorem utf8Lossy_nil : utf8Lossy [] = [] := by
  rw [utf8Lossy.eq_def]

/-- Branch equation for the validator: empty input. -/
theorem validUtf8_nil : validUtf8 [] = true := by
  rw [validUtf8.eq_def]

/-- Branch equation for the validator: a three-byte lead with a bad second byte. -/
theorem validUtf8_three_bad2v (b c : Nat) (rest2 : List Nat) (h1 : ¬ b ≤ 0x7F)
    (h2 : ¬ (0xC2 ≤ b ∧ b ≤ 0xDF)) (h3 : 0xE0 ≤ b ∧ b ≤ 0xEF)
    (hv : validCont3 b c = false) :
    validUtf8 (b :: c :: rest2) = false := by
  rw [validUtf8.eq_def]
  simp only [if_neg h1, if_neg h2, if_pos h3, hv, Bool.false_and]

/-- Branch equation for the validator: a four-byte lead with a bad second byte. -/
theorem validUtf8_four_bad2v (b c : Nat) (rest2 : List Nat) (h1 : ¬ b ≤ 0x7F)
    (h2 : ¬ (0xC2 ≤ b ∧ b ≤ 0xDF)) (h3 : ¬ (0xE0 ≤ b ∧ b ≤ 0xEF))
    (h4 : 0xF0 ≤ b ∧ b ≤ 0xF4) (hv : validCont4 b c = false) :
    validUtf8 (b :: c :: rest2) = false := by
  rw [validUtf8.eq_def]
  simp only [if_neg h1, if_neg h2, if_neg h3, if_pos h4, hv, Bool.false_and]

/-- Branch equation for the validator: a four-byte lead with a bad third byte. -/
theorem validUtf8_four_bad3v (b c d : Nat) (rest3 : List Nat) (h1 : ¬ b ≤ 0x7F)
    (h2 : ¬ (0xC2 ≤ b ∧ b ≤ 0xDF)) (h3 : ¬ (0xE0 ≤ b ∧ b ≤ 0xEF))
    (h4 : 0xF0 ≤ b ∧ b ≤ 0xF4) (hd : isCont d = false) :
    validUtf8 (b :: c :: d :: rest3) = false := by
  rw [validUtf8.eq_def]
  simp only [if_neg h1, if_neg h2, if_neg h3, if_pos h4, hd, Bool.false_and, Bool.and_false]

/-- from_utf8_lossy expands each byte to at most three bytes. -/
theorem utf8Lossy_length_le (l : List Nat) : (utf8Lossy l).length ≤ 3 * l.length := by
  induction l using utf8Lossy.induct <;>
    simp_all [utf8Lossy_nil, utf8Lossy_ascii, utf8Lossy_two_nil, utf8Lossy_two_ok,
      utf8Lossy_two_bad, utf8Lossy_three_nil, utf8Lossy_three_one, utf8Lossy_three_ok,
      utf8Lossy_three_bad3, utf8Lossy_three_bad2, utf8Lossy_four_nil, utf8Lossy_four_one,
      utf8Lossy_four_two, utf8Lossy_four_ok, utf8Lossy_four_bad4, utf8Lossy_four_bad3,
      utf8Lossy_four_bad2, utf8Lossy_other, repl] <;> omega

/-- On valid UTF-8 input, from_utf8_lossy is the identity on bytes. -/
theorem utf8Lossy_of_valid (l : List Nat) (hval : validUtf8 l = true) : utf8Lossy l = l := by
  induction l using utf8Lossy.induct <;>
    simp_all [validUtf8_nil, validUtf8_ascii, validUtf8_single, validUtf8_two,
      validUtf8_three, validUtf8_three_pair, validUtf8_four, validUtf8_four_pair,
      validUtf8_four_triple, validUtf8_other, validUtf8_three_bad2v, validUtf8_four_bad2v,
      validUtf8_four_bad3v, utf8Lossy_nil, utf8Lossy_ascii,
      utf8Lossy_two_ok, utf8Lossy_three_ok, utf8Lossy_four_ok]

/-- The lossy decoding of n 0xFF bytes is n replacement characters, 3n bytes. -/
theorem utf8Lossy_replicate_FF (n : Nat) :
    (utf8Lossy (List.replicate n 0xFF)).length = 3 * n := by
  induction n with
  | zero => simp [utf8Lossy_nil]
  | succ m ih =>
    rw [List.replicate_succ,
      utf8Lossy_other 0xFF _ (by norm_num) (by norm_num) (by norm_num) (by norm_num)]
    simp only [List.length_append, repl, List.length_cons, List.length_nil, ih]
    omega

/-- C7 counterexample: 10 MiB of 0xFF bytes is not over the cap, so the
truncation flag stays false and the bytes are decoded without truncation;
from_utf8_lossy turns every byte into a three-byte replacement character,
so the stored string is 30 MiB: it is not the input stored unmodified, and
it exceeds the 10 MiB cap the spec promises is never exceeded. -/
theorem c7_counterexample :
    (truncate_output_bytes (List.replicate MAX_OUTPUT_SIZE 0xFF)).2 = false ∧
    (truncate_output_bytes (List.replicate MAX_OUTPUT_SIZE 0xFF)).1.length = 31457280 ∧
    (truncate_output_bytes (List.replicate MAX_OUTPUT_SIZE 0xFF)).1 ≠
      List.replicate MAX_OUTPUT_SIZE 0xFF ∧
    MAX_OUTPUT_SIZE < (truncate_output_bytes (List.replicate MAX_OUTPUT_SIZE 0xFF)).1.length := by
  have hlen : (List.replicate MAX_OUTPUT_SIZE (0xFF : Nat)).length = MAX_OUTPUT_SIZE :=
    List.length_replicate MAX_OUTPUT_SIZE 0xFF
  have hbytes : (truncate_output_bytes (List.replicate MAX_OUTPUT_SIZE 0xFF)).1 =
      utf8Lossy (List.replicate MAX_OUTPUT_SIZE 0xFF) := by
    simp [truncate_output_bytes, hlen]
  have hflag : (truncate_output_bytes (List.replicate MAX_OUTPUT_SIZE 0xFF)).2 = false := by
    simp [truncate_output_bytes, hlen]
  have hL : (truncate_output_bytes (List.replicate MAX_OUTPUT_SIZE 0xFF)).1.length = 31457280 := by
    rw [hbytes, utf8Lossy_replicate_FF]
    norm_num [MAX_OUTPUT_SIZE]
  refine ⟨hflag, hL, ?_, ?_⟩
  · intro h
    have h2 := congrArg List.length h
    rw [hL, hlen] at h2
    norm_num [MAX_OUTPUT_SIZE] at h2
  · rw [hL]
    norm_num [MAX_OUTPUT_SIZE]

/-- C7 (amended): the truncation flag is true exactly when the raw output
exceeds 10 MiB; when the raw output is valid UTF-8 and within the cap it
is stored unmodified; the stored byte length is bounded by three times
the number of bytes kept (at most 3 times 10 MiB, not 10 MiB); and in
general the stored bytes are the lossy decoding of the first
min(len, 10 MiB) raw bytes. -/
theorem c7_truncate_output (data : List Nat) :
    ((truncate_output_bytes data).2 = true ↔ MAX_OUTPUT_SIZE < data.length) ∧
    (validUtf8 data = true → data.length ≤ MAX_OUTPUT_SIZE →
      (truncate_output_bytes data).1 = data) ∧
    (truncate_output_bytes data).1.length ≤ 3 * min data.length MAX_OUTPUT_SIZE ∧
    (truncate_output_bytes data).1 =
      utf8Lossy (if MAX_OUTPUT_SIZE < data.length then data.take MAX_OUTPUT_SIZE else data) := by
  by_cases hgt : MAX_OUTPUT_SIZE < data.length
  · have hd : decide (data.length > MAX_OUTPUT_SIZE) = true := by
      simpa using hgt
    refine ⟨by simp [truncate_output_bytes, hd, hgt], ?_, ?_, ?_⟩
    · intro hv hle
      omega
    · have : (truncate_output_bytes data).1 = utf8Lossy (data.take MAX_OUTPUT_SIZE) := by
        simp [truncate_output_bytes, hd]
      rw [this]
      calc (utf8Lossy (data.take MAX_OUTPUT_SIZE)).length
          ≤ 3 * (data.take MAX_OUTPUT_SIZE).length := utf8Lossy_length_le _
        _ = 3 * min data.length MAX_OUTPUT_SIZE := by
            rw [List.length_take, Nat.min_comm]
    · simp [truncate_output_bytes, hd, if_pos hgt]
  · have hd : decide (data.length > MAX_OUTPUT_SIZE) = false := by
      simpa using hgt
    refine ⟨by simp [truncate_output_bytes, hd, hgt], ?_, ?_, ?_⟩
    · intro hv hle
      have : (truncate_output_bytes data).1 = utf8Lossy data := by
        simp [truncate_output_bytes, hd]
      rw [this, utf8Lossy_of_valid data hv]
    · have : (truncate_output_bytes data).1 = utf8Lossy data := by
        simp [truncate_output_bytes, hd]
      rw [this, Nat.min_eq_left (by omega)]
      exact utf8Lossy_length_le data
    · simp [truncate_output_bytes, hd, if_neg hgt]

/-- C7 witness: a one-byte valid ASCII output is stored unmodified with
the truncation flag false. -/
theorem c7_witness :
    (truncate_output_bytes [0x61]).1 = [0x61] ∧
    (truncate_output_bytes [0x61]).2 = false := by
  refine ⟨(c7_truncate_output [0x61]).2.1 (by decide) (by decide), ?_⟩
  have h := (c7_truncate_output [0x61]).1
  cases hq : (truncate_output_bytes [0x61]).2
  · rfl
  · exact absurd (h.mp hq) (by decide)


/-- C8 (amended): for names within the modelled character domain
(code points up to U+00FF), validate_task_name accepts a name exactly
when it is nonempty, at most 64 UTF-8 bytes long, and every character
is alphanumeric in the Unicode sense of char::is_alphanumeric or an
underscore or a dash.  The accepted class is strictly larger than
[A-Za-z0-9_-]: any Unicode letter or number is accepted, and length
is measured in bytes, not characters. -/
theorem c8_validate_task_name (name : List Char)
    (hdom : ∀ c ∈ name, c.toNat < 0x100) :
    validate_task_name name = .ok () ↔
      name ≠ [] ∧ utf8Len name ≤ MAX_TASK_NAME_LEN ∧
      ∀ c ∈ name, (rust_is_alphanumeric c || c == '_' || c == '-') = true := by
  unfold validate_task_name
  constructor
  · intro h
    split_ifs at h with h1 h2 h3
    refine ⟨by simpa using h1, by omega, ?_⟩
    intro c hc
    exact List.all_eq_true.mp h3 c hc
  · rintro ⟨h1, h2, h3⟩
    rw [if_neg (by simpa using h1), if_neg (by omega), if_pos (List.all_eq_true.mpr h3)]

/-- Counterexample for C8 as stated: the one-character name with the
letter e-acute is accepted by validate_task_name (and hence by
parse_workflow_yaml, which validates each task name with it), yet the
character is outside [A-Za-z0-9_-]. -/
theorem c8_counterexample :
    validate_task_name ['é'] = .ok () ∧ asciiNameClass 'é' = false :=
  ⟨by decide, by decide⟩

/-- Witness for C8 at the concrete name a. -/
theorem c8_witness :
    validate_task_name ['a'] = .ok () :=
  (c8_validate_task_name ['a'] (by decide)).mpr (by decide)

/-- C9 (amended): the Daemon::new start-up gate refuses to start
whenever the PID file exists, whether or not the referenced PID is a
live process; only check_daemon_running (used by the stop and status
commands) consults liveness and treats a dead referenced PID as a
stale file. -/
theorem c9_daemon_new (env : DaemonEnv) :
    (daemon_new_check env = .ok () ↔ env.pid_file_exists = false) ∧
    (check_daemon_running env = some env.pid_file_pid ↔
      env.pid_file_exists = true ∧ env.pid_live env.pid_file_pid = true) ∧
    (check_daemon_running env = none ↔
      env.pid_file_exists = false ∨ env.pid_live env.pid_file_pid = false) := by
  rcases env with ⟨ex, pid, live⟩
  unfold daemon_new_check check_daemon_running
  simp only
  cases ex <;> cases hlv : live pid <;> simp [hlv]

/-- Counterexample for C9 as stated: the PID file exists and the
referenced process is not live, so the claim says start-up proceeds
treating the file as stale, but the Daemon::new gate returns an
error. -/
theorem c9_counterexample :
    daemon_new_check ⟨true, 1234, fun _ => false⟩ =
      .error (.Other "Daemon already running or stale PID file exists") ∧
    DaemonEnv.pid_live ⟨true, 1234, fun _ => false⟩ 1234 = false :=
  ⟨rfl, rfl⟩

/-- Witness for C9: with no PID file the daemon starts. -/
theorem c9_witness :
    daemon_new_check ⟨false, 7, fun _ => true⟩ = .ok () :=
  (c9_daemon_new ⟨false, 7, fun _ => true⟩).1.mpr rfl

/-! ## Lemmas for failure propagation (scheduler.rs) -/

theorem nodup_getElem_opt_inj {α : Type} {l : List α} (hnd : l.Nodup) {i j : Nat} {x : α}
    (hi : l[i]? = some x) (hj : l[j]? = some x) : i = j := by
  rw [List.getElem?_eq_some] at hi hj
  obtain ⟨hi1, hi2⟩ := hi
  obtain ⟨hj1, hj2⟩ := hj
  exact (List.Nodup.getElem_inj_iff hnd).mp (by rw [hi2, hj2])

theorem depRel_edge {tasks : List TaskConfig} {g : DagEngine}
    (h : DagEngine.build tasks = .ok g) {d t : String} (hdt : depRel tasks d t) :
    ∃ di ti, lastIdxOf (tasks.map (fun t => t.name)) d = some di ∧
      lastIdxOf (tasks.map (fun t => t.name)) t = some ti ∧ (di, ti) ∈ g.edges := by
  obtain ⟨hl, hbe, _⟩ := build_ok_elim h
  obtain ⟨c, hc, hcn, hd⟩ := hdt
  have hres := buildEdgesAux_resolves hbe c hc
  obtain ⟨ti, hti⟩ := Option.isSome_iff_exists.mp hres.1
  obtain ⟨di, hdi⟩ := Option.isSome_iff_exists.mp (hres.2 d hd)
  refine ⟨di, ti, hdi, ?_, buildEdgesAux_mem_of hbe hc hd hdi hti⟩
  rw [← hcn]
  exact hti

theorem transGen_depRel_nodes {tasks : List TaskConfig} {g : DagEngine}
    (h : DagEngine.build tasks = .ok g) {U V : String}
    (hUV : Relation.TransGen (depRel tasks) U V) :
    ∃ ui vi, lastIdxOf (tasks.map (fun t => t.name)) U = some ui ∧
      lastIdxOf (tasks.map (fun t => t.name)) V = some vi ∧
      Relation.TransGen (edgeRel g.edges) ui vi := by
  induction hUV with
  | single hstep =>
    obtain ⟨di, ti, hdi, hti, hedge⟩ := depRel_edge h hstep
    exact ⟨di, ti, hdi, hti, Relation.TransGen.single hedge⟩
  | tail hprev hstep ih =>
    obtain ⟨ui, wi, hui, hwi, htg⟩ := ih
    obtain ⟨wi2, vi, hwi2, hvi, hedge⟩ := depRel_edge h hstep
    rw [hwi] at hwi2
    injection hwi2 with hww
    refine ⟨ui, vi, hui, hvi, htg.tail ?_⟩
    rwa [← hww] at hedge

theorem transGen_nodeLevel_lt {tasks : List TaskConfig} {g : DagEngine}
    (h : DagEngine.build tasks = .ok g) {u v : Nat}
    (htg : Relation.TransGen (edgeRel g.edges) u v) :
    g.nodeLevel u < g.nodeLevel v := by
  induction htg with
  | single he => exact nodeLevel_lt_of_edge h he
  | tail hprev he2 ih => exact ih.trans (nodeLevel_lt_of_edge h he2)

theorem lastIdxOf_nodup_getD {names : List String} (hnd : names.Nodup) {v : Nat}
    (hv : v < names.length) {U : String} (hU : names.getD v "" = U) :
    lastIdxOf names U = some v := by
  have hmem : U ∈ names := by
    rw [← hU, List.getD_eq_getElem names "" hv]
    exact List.getElem_mem hv
  obtain ⟨i, hi⟩ := Option.isSome_iff_exists.mp (lastIdxOf_isSome_of_mem hmem)
  have hilt := lastIdxOf_lt_length hi
  have hgd := lastIdxOf_getD hi ""
  have hiv : i = v := by
    apply nodup_getElem_opt_inj hnd (x := U)
    · rw [List.getElem?_eq_getElem hilt]
      rw [List.getD_eq_getElem names "" hilt] at hgd
      rw [hgd]
    · rw [List.getElem?_eq_getElem hv]
      rw [List.getD_eq_getElem names "" hv] at hU
      rw [hU]
  rw [← hiv]
  exact hi

theorem topo_order_positions {tasks : List TaskConfig} {g : DagEngine}
    (h : DagEngine.build tasks = .ok g) {order : List String}
    (hord : DagEngine.topological_sort g = .ok order) :
    order.Perm (tasks.map (fun t => t.name)) ∧
    ∀ {U V : String}, Relation.TransGen (depRel tasks) U V →
      ∃ i j : Nat, i < j ∧ order[i]? = some U ∧ order[j]? = some V := by
  obtain ⟨hl, hbe, hk⟩ := build_ok_elim h
  have hk2 : (kahn g.labels.length g.edges).isSome = true := by
    rw [hl]
    exact hk
  obtain ⟨out, hout⟩ := Option.isSome_iff_exists.mp hk2
  have horder : order = out.map (fun i => g.labels.getD i "") := by
    simp only [DagEngine.topological_sort] at hord
    rw [hout] at hord
    dsimp only at hord
    injection hord with h2
    rw [h2]
  have hout2 : kahn (tasks.map (fun t => t.name)).length g.edges = some out := by
    rw [← hl]
    exact hout
  have hb2 : ∀ e ∈ g.edges, e.1 < (tasks.map (fun t => t.name)).length ∧
      e.2 < (tasks.map (fun t => t.name)).length := by
    intro e he
    have := build_edges_bound h e he
    rw [hl] at this
    exact this
  constructor
  · have h2 := (kahn_perm hout2).map (fun i => (tasks.map (fun t => t.name)).getD i "")
    rw [map_getD_range] at h2
    rw [horder, hl]
    exact h2
  · intro U V hUV
    obtain ⟨ui, vi, hui, hvi, htg⟩ := transGen_depRel_nodes h hUV
    have hun := lastIdxOf_lt_length hui
    have hvn := lastIdxOf_lt_length hvi
    have hlt := transGen_indexOf_lt hout2 hb2 htg
    have hmemu : ui ∈ out := (kahn_perm hout2).mem_iff.mpr (List.mem_range.mpr hun)
    have hmemv : vi ∈ out := (kahn_perm hout2).mem_iff.mpr (List.mem_range.mpr hvn)
    refine ⟨out.indexOf ui, out.indexOf vi, hlt, ?_, ?_⟩
    · rw [horder, List.getElem?_map, List.getElem?_indexOf hmemu]
      simp only [Option.map_some']
      rw [hl, lastIdxOf_getD hui ""]
    · rw [horder, List.getElem?_map, List.getElem?_indexOf hmemv]
      simp only [Option.map_some']
      rw [hl, lastIdxOf_getD hvi ""]

theorem execSeqAux_stop (tm : String → TaskConfig) (tr : String → TaskResult)
    (U : String) (hfail : tr U = .ok false)
    (hcof : (tm U).continue_on_failure = false) :
    ∀ (l : List String) (acc : Bool), U ∈ (execSeqAux tm tr l acc).1 →
    ∃ l1 r2, l = l1 ++ U :: r2 ∧ (execSeqAux tm tr l acc).1 = l1 ++ [U] := by
  intro l
  induction l with
  | nil =>
    intro acc hU
    simp [execSeqAux] at hU
  | cons nm rest ih =>
    intro acc hU
    by_cases hnm : nm = U
    · subst hnm
      refine ⟨[], rest, rfl, ?_⟩
      simp only [execSeqAux, hfail]
      rw [if_neg (by rw [hcof]; exact Bool.false_ne_true)]
      rfl
    · cases htr : tr nm with
      | err =>
        simp only [execSeqAux, htr] at hU
        exact absurd (List.mem_singleton.mp hU) (Ne.symm hnm)
      | ok s =>
        cases s with
        | true =>
          simp only [execSeqAux, htr] at hU ⊢
          rcases List.mem_cons.mp hU with heq | hU2
          · exact absurd heq.symm hnm
          · obtain ⟨l1, r2, hl2, he⟩ := ih acc hU2
            refine ⟨nm :: l1, r2, by rw [List.cons_append, hl2], ?_⟩
            rw [List.cons_append, he]
        | false =>
          by_cases hc : (tm nm).continue_on_failure = true
          · simp only [execSeqAux, htr, if_pos hc] at hU ⊢
            rcases List.mem_cons.mp hU with heq | hU2
            · exact absurd heq.symm hnm
            · obtain ⟨l1, r2, hl2, he⟩ := ih false hU2
              refine ⟨nm :: l1, r2, by rw [List.cons_append, hl2], ?_⟩
              rw [List.cons_append, he]
          · simp only [execSeqAux, htr, if_neg hc] at hU
            exact absurd (List.mem_singleton.mp hU) (Ne.symm hnm)

theorem processLevelResults_stop (tm : String → TaskConfig) (tr : String → TaskResult)
    (U : String) (hfail : tr U = .ok false)
    (hcof : (tm U).continue_on_failure = false) :
    ∀ (l failed : List String) (ws : Bool), U ∈ l →
      (processLevelResults tm tr l failed ws).2.2 = true := by
  intro l
  induction l with
  | nil =>
    intro failed ws hU
    simp at hU
  | cons nm rest ih =>
    intro failed ws hU
    by_cases hnm : nm = U
    · subst hnm
      simp only [processLevelResults, hfail]
      rw [if_neg (by rw [hcof]; exact Bool.false_ne_true)]
    · have hU2 : U ∈ rest := by
        rcases List.mem_cons.mp hU with heq | h2
        · exact absurd heq.symm hnm
        · exact h2
      cases htr : tr nm with
      | err => simp only [processLevelResults, htr]
      | ok s =>
        cases s with
        | true =>
          simp only [processLevelResults, htr]
          exact ih failed ws hU2
        | false =>
          by_cases hc : (tm nm).continue_on_failure = true
          · simp only [processLevelResults, htr, if_pos hc]
            exact ih (failed ++ [nm]) false hU2
          · simp only [processLevelResults, htr, if_neg hc]

theorem dispatchLevel_sub (tm : String → TaskConfig) :
    ∀ (level failed : List String) (x : String),
      x ∈ (dispatchLevel tm level failed).1 → x ∈ level := by
  intro level
  induction level with
  | nil =>
    intro failed x hx
    simp [dispatchLevel] at hx
  | cons nm rest ih =>
    intro failed x hx
    by_cases hs : skipCheck tm failed (tm nm) = true
    · simp only [dispatchLevel, if_pos hs] at hx
      exact List.mem_cons_of_mem nm (ih (failed ++ [nm]) x hx)
    · simp only [dispatchLevel, if_neg hs] at hx
      rcases List.mem_cons.mp hx with heq | h2
      · rw [heq]
        exact List.mem_cons_self nm rest
      · exact List.mem_cons_of_mem nm (ih failed x h2)

theorem dispatchLevel_failed_mono (tm : String → TaskConfig) :
    ∀ (level failed : List String) (x : String),
      x ∈ failed → x ∈ (dispatchLevel tm level failed).2 := by
  intro level
  induction level with
  | nil =>
    intro failed x hx
    simpa [dispatchLevel] using hx
  | cons nm rest ih =>
    intro failed x hx
    by_cases hs : skipCheck tm failed (tm nm) = true
    · simp only [dispatchLevel, if_pos hs]
      exact ih (failed ++ [nm]) x (List.mem_append_left _ hx)
    · simp only [dispatchLevel, if_neg hs]
      exact ih failed x hx

theorem execParAux_stop (tm : String → TaskConfig) (tr : String → TaskResult)
    (U : String) (hfail : tr U = .ok false)
    (hcof : (tm U).continue_on_failure = false) :
    ∀ (levels : List (List String)) (failed : List String) (ws : Bool),
      U ∈ (execParAux tm tr levels failed ws).1 →
      ∃ ls1 lv ls2, levels = ls1 ++ lv :: ls2 ∧ U ∈ lv ∧
        ∀ x ∈ (execParAux tm tr levels failed ws).1, x ∈ (ls1 ++ [lv]).flatten := by
  intro levels
  induction levels with
  | nil =>
    intro failed ws hU
    simp [execParAux] at hU
  | cons level more ih =>
    intro failed ws hU
    by_cases hstop : (processLevelResults tm tr (dispatchLevel tm level failed).1
        (dispatchLevel tm level failed).2 ws).2.2 = true
    · simp only [execParAux, if_pos hstop] at hU ⊢
      refine ⟨[], level, more, rfl, dispatchLevel_sub tm level failed U hU, ?_⟩
      intro x hx
      simp only [List.nil_append, List.flatten_cons, List.flatten_nil, List.append_nil]
      exact dispatchLevel_sub tm level failed x hx
    · simp only [execParAux, if_neg hstop] at hU ⊢
      rcases List.mem_append.mp hU with hU1 | hU2
      · exact absurd (processLevelResults_stop tm tr U hfail hcof _ _ ws hU1) hstop
      · obtain ⟨ls1, lv, ls2, hmore, hUlv, hsub⟩ := ih _ _ hU2
        refine ⟨level :: ls1, lv, ls2, by rw [List.cons_append, hmore], hUlv, ?_⟩
        intro x hx
        rw [List.cons_append, List.flatten_cons]
        rcases List.mem_append.mp hx with hx1 | hx2
        · exact List.mem_append_left _ (dispatchLevel_sub tm level failed x hx1)
        · exact List.mem_append_right _ (hsub x hx2)

theorem parallel_levels_getElem {g : DagEngine} (hne : ¬ g.labels.length = 0) {k : Nat}
    (hk : k < g.parallel_levels.length) :
    g.parallel_levels[k]? = some
      (((List.range g.labels.length).filter (fun v => decide (g.nodeLevel v = k))).map
        (fun v => g.labels.getD v "")) := by
  rw [DagEngine.parallel_levels, if_neg hne] at hk ⊢
  rw [List.getElem?_map]
  rw [List.length_map, List.length_range] at hk
  rw [List.getElem?_range hk]
  rfl

theorem parallel_levels_mem_level {tasks : List TaskConfig} {g : DagEngine}
    (h : DagEngine.build tasks = .ok g)
    (hnodup : (tasks.map (fun t => t.name)).Nodup)
    {U : String} {ui : Nat}
    (hui : lastIdxOf (tasks.map (fun t => t.name)) U = some ui)
    {k : Nat} {lv : List String}
    (hlv : g.parallel_levels[k]? = some lv) (hUlv : U ∈ lv) :
    k = g.nodeLevel ui := by
  obtain ⟨hl, _, _⟩ := build_ok_elim h
  have hkl : k < g.parallel_levels.length := (List.getElem?_eq_some.mp hlv).1
  have hne : ¬ g.labels.length = 0 := by
    intro h0
    rw [DagEngine.parallel_levels, if_pos h0] at hkl
    simp at hkl
  rw [parallel_levels_getElem hne hkl] at hlv
  injection hlv with hlv2
  rw [← hlv2] at hUlv
  rw [List.mem_map] at hUlv
  obtain ⟨v, hvf, hvU⟩ := hUlv
  rw [List.mem_filter, List.mem_range] at hvf
  have hvlen : v < (tasks.map (fun t => t.name)).length := by
    rw [← hl]
    exact hvf.1
  have hvlvl : g.nodeLevel v = k := by
    have := hvf.2
    simpa using this
  have hgd : (tasks.map (fun t => t.name)).getD v "" = U := by
    rw [← hl]
    exact hvU
  have hlast : lastIdxOf (tasks.map (fun t => t.name)) U = some v :=
    lastIdxOf_nodup_getD hnodup hvlen hgd
  rw [hui] at hlast
  injection hlast with hv2
  rw [hv2, hvlvl]

/-- C3: in a run over a successfully built DAG with distinct task
names, if an attempted task U fails with continue_on_failure false,
no transitive dependent of U is attempted, in the sequential path
(driven by the topological order) and in the level-parallel path
(driven by parallel_levels) alike; moreover in the parallel path a
task is skipped exactly when some task in its depends_on is in the
accumulated failed set with continue_on_failure false, and a skipped
task is added to the failed set and is not dispatched (hence never
gets a task attempt record). -/
theorem c3_failure_propagation (tasks : List TaskConfig) (tr : String → TaskResult)
    {g : DagEngine} (hbuild : DagEngine.build tasks = .ok g)
    (hnodup : (tasks.map (fun t => t.name)).Nodup)
    (U V : String)
    (hfail : tr U = .ok false)
    (hcof : (taskMapOf tasks U).continue_on_failure = false)
    (hdep : Relation.TransGen (depRel tasks) U V) :
    (∀ order, DagEngine.topological_sort g = .ok order →
      U ∈ (execute_sequential tasks tr order).1 →
      V ∉ (execute_sequential tasks tr order).1) ∧
    (U ∈ (execute_parallel tasks tr g.parallel_levels).1 →
      V ∉ (execute_parallel tasks tr g.parallel_levels).1) ∧
    (∀ (failed : List String) (t : TaskConfig),
      skipCheck (taskMapOf tasks) failed t = true ↔
        ∃ d ∈ t.depends_on, d ∈ failed ∧
          (taskMapOf tasks d).continue_on_failure = false) ∧
    (∀ (rest failed : List String) (nm : String),
      skipCheck (taskMapOf tasks) failed (taskMapOf tasks nm) = true → nm ∉ rest →
        nm ∈ (dispatchLevel (taskMapOf tasks) (nm :: rest) failed).2 ∧
        nm ∉ (dispatchLevel (taskMapOf tasks) (nm :: rest) failed).1) := by
  refine ⟨?_, ?_, ?_, ?_⟩
  · intro order hord hUatt hVatt
    obtain ⟨hperm, hpos⟩ := topo_order_positions hbuild hord
    obtain ⟨iU, iV, hij, hiU, hiV⟩ := hpos hdep
    have hnd : order.Nodup := (List.Perm.nodup_iff hperm).mpr hnodup
    simp only [execute_sequential] at hUatt hVatt
    obtain ⟨l1, r2, hl2, he⟩ :=
      execSeqAux_stop (taskMapOf tasks) tr U hfail hcof order true hUatt
    rw [he] at hVatt
    have hU_at : order[l1.length]? = some U := by
      rw [hl2, List.getElem?_append_right (le_refl l1.length)]
      simp
    have hiU2 : iU = l1.length := nodup_getElem_opt_inj hnd hiU hU_at
    rcases List.mem_append.mp hVatt with hV1 | hV2
    · obtain ⟨j, hj⟩ := List.mem_iff_getElem?.mp hV1
      have hjlt : j < l1.length := (List.getElem?_eq_some.mp hj).1
      have hV_at : order[j]? = some V := by
        rw [hl2, List.getElem?_append_left hjlt]
        exact hj
      have hje : j = iV := nodup_getElem_opt_inj hnd hV_at hiV
      omega
    · have hVU : V = U := List.mem_singleton.mp hV2
      rw [hVU] at hiV
      have : iU = iV := nodup_getElem_opt_inj hnd hiU hiV
      omega
  · intro hUatt hVatt
    simp only [execute_parallel] at hUatt hVatt
    obtain ⟨ls1, lv, ls2, hlev, hUlv, hsub⟩ :=
      execParAux_stop (taskMapOf tasks) tr U hfail hcof g.parallel_levels [] true hUatt
    have hVfl := hsub V hVatt
    obtain ⟨ui, vi, hui, hvi, htg⟩ := transGen_depRel_nodes hbuild hdep
    have hlvlt := transGen_nodeLevel_lt hbuild htg
    have hlvU : g.parallel_levels[ls1.length]? = some lv := by
      rw [hlev, List.getElem?_append_right (le_refl _)]
      simp
    have hkU : ls1.length = g.nodeLevel ui :=
      parallel_levels_mem_level hbuild hnodup hui hlvU hUlv
    rw [List.mem_flatten] at hVfl
    obtain ⟨l2, hl2mem, hVl2⟩ := hVfl
    obtain ⟨j, hj⟩ := List.mem_iff_getElem?.mp hl2mem
    have hjlt : j < ls1.length + 1 := by
      have := (List.getElem?_eq_some.mp hj).1
      simpa using this
    have hlevj : g.parallel_levels[j]? = some l2 := by
      rw [hlev]
      by_cases hjc : j < ls1.length
      · rw [List.getElem?_append_left hjc]
        rw [List.getElem?_append_left hjc] at hj
        exact hj
      · have hje : j = ls1.length := by omega
        subst hje
        rw [List.getElem?_append_right (le_refl _)]
        rw [List.getElem?_append_right (le_refl _)] at hj
        simpa using hj
    have hkV : j = g.nodeLevel vi :=
      parallel_levels_mem_level hbuild hnodup hvi hlevj hVl2
    omega
  · intro failed t
    constructor
    · intro hs
      obtain ⟨d, hd, hb⟩ := List.any_eq_true.mp hs
      rw [Bool.and_eq_true] at hb
      refine ⟨d, hd, by simpa using hb.1, by simpa using hb.2⟩
    · rintro ⟨d, hd, hmem, hcf⟩
      apply List.any_eq_true.mpr
      exact ⟨d, hd, by simp [hmem, hcf]⟩
  · intro rest failed nm hskip hnotin
    constructor
    · simp only [dispatchLevel, if_pos hskip]
      exact dispatchLevel_failed_mono _ rest (failed ++ [nm]) nm
        (List.mem_append_right _ (List.mem_singleton_self nm))
    · simp only [dispatchLevel, if_pos hskip]
      intro hcon
      exact hnotin (dispatchLevel_sub _ rest (failed ++ [nm]) nm hcon)

/-- C3 witness: tasks a and b, b depending on a, a failing without
continue_on_failure: b is not attempted in either driving mode. -/
theorem c3_witness :
    ("b" : String) ∉ (execute_sequential
      [⟨"a", [], false, none, none⟩, ⟨"b", ["a"], false, none, none⟩]
      (fun nm => if nm = "a" then TaskResult.ok false else TaskResult.ok true)
      ["a", "b"]).1 ∧
    ("b" : String) ∉ (execute_parallel
      [⟨"a", [], false, none, none⟩, ⟨"b", ["a"], false, none, none⟩]
      (fun nm => if nm = "a" then TaskResult.ok false else TaskResult.ok true)
      (DagEngine.parallel_levels ⟨["a", "b"], [(0, 1)]⟩)).1 := by
  have h := c3_failure_propagation
    [⟨"a", [], false, none, none⟩, ⟨"b", ["a"], false, none, none⟩]
    (fun nm => if nm = "a" then TaskResult.ok false else TaskResult.ok true)
    (g := ⟨["a", "b"], [(0, 1)]⟩)
    (by decide) (by decide) "a" "b" (by decide) (by decide)
    (Relation.TransGen.single
      ⟨⟨"b", ["a"], false, none, none⟩, by decide, rfl, by decide⟩)
  exact ⟨h.1 ["a", "b"] (by decide) (by decide), h.2.1 (by decide)⟩
